import Mathlib

/-!
# Verification of the `pqdict` indexed priority queue

A shallow embedding of `pqdict.py`: a binary heap of (dkey, pkey) entries
together with a position dictionary mapping each dkey to the index of its
entry in the heap array.  Heap mutation goes through the `_swim` / `_sink`
primitives, translated below as fuel-indexed structural recursions (the fuel
is an upper bound on the number of loop iterations: `_swim` strictly
decreases its position, `_sink` strictly increases it below `endpos`, so
`pos` resp. `endpos` iterations always suffice).

Python `dict` is modelled as an association list with the usual
first-binding-wins lookup; `KeyError` / `IndexError` / `NameError` are the
`PyErr` values and fallible methods return `Except PyErr α × PQ`, the second
component being the state of the object after the call (the translated error
branches return the state exactly as the Python method left it when raising).

The entry comparison `entry.__lt__` of `_MinEntry` / `_MaxEntry` / custom
subclasses compares priority keys; it is abstracted as a boolean relation
`ltp` on priorities (`intLt` for the ascending min-queue, `intGt` for the
descending max-queue).
-/

set_option maxHeartbeats 1000000
set_option linter.unusedSectionVars false

inductive PyErr : Type
  | keyError : PyErr
  | indexError : PyErr
  | nameError : PyErr
deriving DecidableEq

deriving instance DecidableEq for Except

section PQDict

variable {K P : Type} [DecidableEq K] [Inhabited K] [Inhabited P]

/-- Python `dict` lookup (`m[k]` / `m.get(k)`), first binding wins. -/
def dictGet (m : List (K × Nat)) (k : K) : Option Nat :=
  match m with
  | [] => none
  | (k0, v) :: rest => if k0 = k then some v else dictGet rest k

/-- Python `dict` assignment `m[k] = v`: overwrite the binding if present,
otherwise append a new one. -/
def dictSet (m : List (K × Nat)) (k : K) (v : Nat) : List (K × Nat) :=
  match m with
  | [] => [(k, v)]
  | (k0, v0) :: rest => if k0 = k then (k0, v) :: rest else (k0, v0) :: dictSet rest k v

/-- Python `del m[k]` / `m.pop(k)`: drop the binding of `k`. -/
def dictRemove (m : List (K × Nat)) (k : K) : List (K × Nat) :=
  match m with
  | [] => []
  | (k0, v0) :: rest => if k0 = k then rest else (k0, v0) :: dictRemove rest k

/-- The `PQDict` state: the heap array of (dkey, pkey) entries and the
position index (`self._heap` and `self._position`). -/
structure PQ (K P : Type) where
  heap : List (K × P)
  position : List (K × Nat)
deriving DecidableEq

variable (ltp : P → P → Bool)

/-- The loop of `PQDict._swim(pos, top)`: sift parents down until the carried
entry fits, then write the entry into its final slot.  `fuel ≥ pos` makes the
bound irrelevant since the position strictly decreases each iteration. -/
def swimLoop (fuel : Nat) (heap : List (K × P)) (position : List (K × Nat))
    (entry : K × P) (pos top : Nat) : List (K × P) × List (K × Nat) :=
  match fuel with
  | 0 => (heap.set pos entry, dictSet position entry.1 pos)
  | fuel + 1 =>
    if top < pos then
      let parent_pos := (pos - 1) / 2
      let parent_entry := heap.getD parent_pos default
      if ltp entry.2 parent_entry.2 then
        swimLoop fuel (heap.set pos parent_entry)
          (dictSet position parent_entry.1 pos) entry parent_pos top
      else (heap.set pos entry, dictSet position entry.1 pos)
    else (heap.set pos entry, dictSet position entry.1 pos)

/-- `PQDict._swim(pos, top)`. -/
def swim (heap : List (K × P)) (position : List (K × Nat)) (pos top : Nat) :
    List (K × P) × List (K × Nat) :=
  swimLoop ltp pos heap position (heap.getD pos default) pos top

/-- The descending loop of `PQDict._sink`: hoist the better child up one
level until a leaf slot is vacated; returns the state together with the
vacated position.  `fuel ≥ endpos` suffices since the position strictly
increases while staying below `endpos`. -/
def sinkChain (fuel : Nat) (heap : List (K × P)) (position : List (K × Nat))
    (pos endpos : Nat) : List (K × P) × List (K × Nat) × Nat :=
  match fuel with
  | 0 => (heap, position, pos)
  | fuel + 1 =>
    let child_pos := 2 * pos + 1
    if child_pos < endpos then
      let other_pos := child_pos + 1
      let child_pos' :=
        if other_pos < endpos &&
            !(ltp (heap.getD child_pos default).2 (heap.getD other_pos default).2) then
          other_pos
        else child_pos
      let child_entry := heap.getD child_pos' default
      sinkChain fuel (heap.set pos child_entry)
        (dictSet position child_entry.1 pos) child_pos' endpos
    else (heap, position, pos)

/-- `PQDict._sink(top)`: Floyd's sink-to-the-bottom-then-swim. -/
def sink (heap : List (K × P)) (position : List (K × Nat)) (top : Nat) :
    List (K × P) × List (K × Nat) :=
  let endpos := heap.length
  let entry := heap.getD top default
  match sinkChain ltp endpos heap position top endpos with
  | (h1, m1, pos) => swim ltp (h1.set pos entry) (dictSet m1 entry.1 pos) pos top

/-- The shared directional fixup of `__setitem__` (update branch),
`__delitem__` and `pop`: compare the entry at `pos` with its parent and its
better child, then `_swim(pos)` or `_sink(pos)` or leave it in place. -/
def bubble (heap : List (K × P)) (position : List (K × Nat)) (pos : Nat) :
    List (K × P) × List (K × Nat) :=
  let e := heap.getD pos default
  if 0 < pos && ltp e.2 (heap.getD ((pos - 1) / 2) default).2 then
    swim ltp heap position pos 0
  else
    let child_pos := 2 * pos + 1
    if child_pos < heap.length then
      let other_pos := child_pos + 1
      let child_pos' :=
        if other_pos < heap.length &&
            !(ltp (heap.getD child_pos default).2 (heap.getD other_pos default).2) then
          other_pos
        else child_pos
      if ltp (heap.getD child_pos' default).2 e.2 then sink ltp heap position pos
      else (heap, position)
    else (heap, position)

/-- `PQDict._heapify`: `for pos in reversed(range(n // 2)): self._sink(pos)`. -/
def heapifyFrom (m : Nat) (heap : List (K × P)) (position : List (K × Nat)) :
    List (K × P) × List (K × Nat) :=
  match m with
  | 0 => (heap, position)
  | m' + 1 =>
    match sink ltp heap position m' with
    | (h1, p1) => heapifyFrom m' h1 p1

/-- The construction loop of `PQDict.__init__`: entries are appended in input
order and `position[dkey] = pos` is assigned sequentially (a duplicate dkey
overwrites the earlier binding while both entries stay in the array). -/
def loadPositions (acc : List (K × Nat)) (pos : Nat) : List (K × P) → List (K × Nat)
  | [] => acc
  | (k, _) :: rest => loadPositions (dictSet acc k pos) (pos + 1) rest

/-- `PQDict.__init__` from a sequence of (dkey, pkey) pairs, followed by
`self._heapify()`. -/
def pqInit (pairs : List (K × P)) : PQ K P :=
  match heapifyFrom ltp (pairs.length / 2) pairs (loadPositions [] 0 pairs) with
  | (h, m) => ⟨h, m⟩

/-- `PQDict.__getitem__`: `self._heap[self._position[dkey]].pkey`. -/
def getitem (q : PQ K P) (k : K) : Except PyErr P :=
  match dictGet q.position k with
  | none => .error .keyError
  | some pos =>
      if pos < q.heap.length then .ok (q.heap.getD pos default).2
      else .error .indexError

/-- `PQDict.__setitem__`: insert a fresh entry at the end and swim it, or
overwrite the priority in place and fix up in the right direction. -/
def setitem (q : PQ K P) (dkey : K) (pkey : P) : PQ K P :=
  match dictGet q.position dkey with
  | none =>
      let n := q.heap.length
      match swim ltp (q.heap ++ [(dkey, pkey)]) (dictSet q.position dkey n) n 0 with
      | (h, m) => ⟨h, m⟩
  | some pos =>
      let cur := q.heap.getD pos default
      match bubble ltp (q.heap.set pos (cur.1, pkey)) q.position pos with
      | (h, m) => ⟨h, m⟩

/-- `PQDict.__delitem__`: pop the key's binding, move the last entry into the
vacated slot (unless it is the deleted entry itself) and fix up. -/
def delitem (q : PQ K P) (dkey : K) : Except PyErr Unit × PQ K P :=
  match dictGet q.position dkey with
  | none => (.error .keyError, q)
  | some pos =>
      let position := dictRemove q.position dkey
      if pos < q.heap.length then
        let endE := q.heap.getD (q.heap.length - 1) default
        let heap0 := q.heap.dropLast
        if pos = q.heap.length - 1 then (.ok (), ⟨heap0, position⟩)
        else
          match bubble ltp (heap0.set pos endE) (dictSet position endE.1 pos) pos with
          | (h, m) => (.ok (), ⟨h, m⟩)
      else (.error .indexError, ⟨q.heap, position⟩)

/-- `PQDict.pop(dkey, default)`: like `__delitem__` but returns the priority
key; with no default a missing key raises. -/
def popKey (q : PQ K P) (dkey : K) (dflt : Option P) : Except PyErr P × PQ K P :=
  match dictGet q.position dkey with
  | none =>
      match dflt with
      | none => (.error .keyError, q)
      | some d => (.ok d, q)
  | some pos =>
      let position := dictRemove q.position dkey
      if pos < q.heap.length then
        let entry := q.heap.getD pos default
        let endE := q.heap.getD (q.heap.length - 1) default
        let heap0 := q.heap.dropLast
        if pos = q.heap.length - 1 then (.ok entry.2, ⟨heap0, position⟩)
        else
          match bubble ltp (heap0.set pos endE) (dictSet position endE.1 pos) pos with
          | (h, m) => (.ok entry.2, ⟨h, m⟩)
      else (.error .indexError, ⟨q.heap, position⟩)

/-- `PQDict.popitem`: pop the last entry; if the heap is still nonempty move
it into the root slot and sink, returning the old root. -/
def popitem (q : PQ K P) : Except PyErr (K × P) × PQ K P :=
  if q.heap.length = 0 then (.error .keyError, q)
  else
    let endE := q.heap.getD (q.heap.length - 1) default
    let heap0 := q.heap.dropLast
    if heap0.length = 0 then
      (.ok (endE.1, endE.2), ⟨heap0, dictRemove q.position endE.1⟩)
    else
      let entry := heap0.getD 0 default
      match sink ltp (heap0.set 0 endE) (dictSet q.position endE.1 0) 0 with
      | (h2, m2) => (.ok (entry.1, entry.2), ⟨h2, dictRemove m2 entry.1⟩)

/-- `PQDict.additem`: pure insertion, `KeyError` when the key is present. -/
def additem (q : PQ K P) (dkey : K) (pkey : P) : Except PyErr Unit × PQ K P :=
  match dictGet q.position dkey with
  | some _ => (.error .keyError, q)
  | none => (.ok (), setitem ltp q dkey pkey)

/-- `PQDict.updateitem`: pure update, `KeyError` when the key is absent. -/
def updateitem (q : PQ K P) (dkey : K) (pkey : P) : Except PyErr Unit × PQ K P :=
  match dictGet q.position dkey with
  | none => (.error .keyError, q)
  | some _ => (.ok (), setitem ltp q dkey pkey)

/-- `PQDict.peek`: the root entry, `KeyError` when empty. -/
def peek (q : PQ K P) : Except PyErr (K × P) :=
  match q.heap with
  | [] => .error .keyError
  | e :: _ => .ok (e.1, e.2)

/-- `PQDict.pushpopitem`: the method body reads the undefined names
`self_position` (for `self._position`) and `key` (for `pkey`), so every call
raises `NameError` before touching any state. -/
def pushpopitem (q : PQ K P) (dkey : K) (pkey : P) : Except PyErr (K × P) × PQ K P :=
  let _ := dkey
  let _ := pkey
  (.error .nameError, q)

/-- The loop of `PQDict.iteritems`: repeatedly `popitem` until `KeyError`.
`fuel ≥ len(heap)` iterations always suffice. -/
def drainFuel (fuel : Nat) (q : PQ K P) : List (K × P) :=
  match fuel with
  | 0 => []
  | fuel + 1 =>
    match popitem ltp q with
    | (.ok item, q') => item :: drainFuel fuel q'
    | (.error _, _) => []

/-- `PQDict.iteritems()` run to exhaustion (the destructive heapsort
iterator, materialised). -/
def drain (q : PQ K P) : List (K × P) :=
  drainFuel ltp q.heap.length q

end PQDict

/-- `_MinEntry.__lt__`: ascending comparison on integer priorities. -/
def intLt (a b : Int) : Bool := a < b

/-- `_MaxEntry.__lt__`: descending comparison on integer priorities. -/
def intGt (a b : Int) : Bool := b < a

/-- `sort_by_value(mapping, reverse)`: build a min- (or max-) `PQDict` over
the items and drain it via `iteritems`. -/
def sort_by_value {K : Type} [DecidableEq K] [Inhabited K]
    (mapping : List (K × Int)) (reverse : Bool) : List (K × Int) :=
  if reverse then drain intGt (pqInit intGt mapping)
  else drain intLt (pqInit intLt mapping)

/-! ## Entry-object store model

`PQDictEntry` objects are mutable and held by reference in `self._heap`;
`__copy__` allocates fresh entry objects (`copy(entry)`) and `__setitem__`
mutates an existing entry in place (`heap[pos].pkey = pkey`). To reason about
aliasing between a queue and its copy we model the Python object heap as a
store of entry cells addressed by allocation ids; a queue holds ids, never
cells. Priorities are `Int` (the claims' concrete type) and each cell carries
the entry class it was created with (`_MinEntry` / `_MaxEntry`), which fixes
its `__lt__`. -/

/-- The entry class of a cell: `_MinEntry` (ascending) or `_MaxEntry`
(descending). -/
inductive EKind where
  | asc : EKind
  | desc : EKind
deriving DecidableEq

/-- A `PQDictEntry` object: `dkey`, `pkey` and the class it was instantiated
from. -/
structure Cell (K : Type) where
  dkey : K
  pkey : Int
  kind : EKind
deriving DecidableEq

instance instInhabitedCell {K : Type} [Inhabited K] : Inhabited (Cell K) :=
  ⟨⟨default, 0, .asc⟩⟩

/-- `entry1 < entry2`: Python dispatches on the left operand's class
(`_MinEntry.__lt__` compares `self.pkey < other.pkey`, `_MaxEntry.__lt__`
compares `self.pkey > other.pkey`). -/
def cellLt {K : Type} (a b : Cell K) : Bool :=
  match a.kind with
  | .asc => decide (a.pkey < b.pkey)
  | .desc => decide (b.pkey < a.pkey)

/-- A `PQDict` in the store model: the instance's `create_entry` attribute
(class default `_MinEntry`, overridden to `_MaxEntry` by `maxpq`),
`self._heap` as a list of cell ids, and `self._position`. -/
structure PQRef (K : Type) where
  createKind : EKind
  heapIds : List Nat
  position : List (K × Nat)
deriving DecidableEq

/-- `PQDict()` followed by setting the instance `create_entry` attribute, as
`minpq` / `maxpq` do before populating. -/
def pqdictNewS {K : Type} (kind : EKind) : PQRef K :=
  ⟨kind, [], []⟩

/-- Entry comparison through the store: read both cells and apply the left
one's `__lt__`. -/
def idLt {K : Type} [Inhabited K] (s : List (Cell K)) (a b : Nat) : Bool :=
  cellLt (s.getD a default) (s.getD b default)

/-- The heap as (dkey, id) pairs: the dkey is read from the entry object, as
`entry.dkey` is. -/
def refHeap {K : Type} [Inhabited K] (s : List (Cell K)) (q : PQRef K) :
    List (K × Nat) :=
  q.heapIds.map (fun id => ((s.getD id default).dkey, id))

/-- `PQDict.__setitem__` in the store model. A new key allocates a fresh cell
with the instance's `create_entry` class and swims it; an existing key mutates
its cell's `pkey` in place and bubbles. The swim/bubble fix-ups permute ids
and rewrite `position` but never write the store. -/
def setitemS {K : Type} [DecidableEq K] [Inhabited K] (s : List (Cell K))
    (q : PQRef K) (dkey : K) (pkey : Int) : List (Cell K) × PQRef K :=
  match dictGet q.position dkey with
  | none =>
      let n := q.heapIds.length
      let s' := s ++ [⟨dkey, pkey, q.createKind⟩]
      match swim (idLt s') (refHeap s' q ++ [(dkey, s.length)])
          (dictSet q.position dkey n) n 0 with
      | (h, m) => (s', ⟨q.createKind, h.map Prod.snd, m⟩)
  | some pos =>
      let id := q.heapIds.getD pos 0
      let c := s.getD id default
      let s' := s.set id ⟨c.dkey, pkey, c.kind⟩
      match bubble (idLt s') (refHeap s' q) q.position pos with
      | (h, m) => (s', ⟨q.createKind, h.map Prod.snd, m⟩)

/-- `PQDict.__copy__`: `other = self.__class__()` (so `other.create_entry` is
the class default `_MinEntry`), `other._heap = [copy(entry) for entry in
self._heap]` (fresh cells with the same dkey, pkey and class), and
`other._position = copy(self._position)`. -/
def copyS {K : Type} [Inhabited K] (s : List (Cell K)) (q : PQRef K) :
    List (Cell K) × PQRef K :=
  (s ++ q.heapIds.map (fun id => s.getD id default),
   ⟨EKind.asc, (List.range q.heapIds.length).map (fun i => s.length + i),
    q.position⟩)

/-- The priority a queue observes for a key: `self._heap[self._position[k]].pkey`. -/
def lookupP {K : Type} [DecidableEq K] [Inhabited K] (s : List (Cell K))
    (q : PQRef K) (k : K) : Option Int :=
  match dictGet q.position k with
  | none => none
  | some pos => some ((s.getD (q.heapIds.getD pos 0) default).pkey)

/-- Well-formedness of a queue reference against the store: every held id is
allocated and every position entry is in heap range. -/
def refValid {K : Type} (s : List (Cell K)) (q : PQRef K) : Bool :=
  q.heapIds.all (fun id => decide (id < s.length)) &&
  q.position.all (fun kp => decide (kp.2 < q.heapIds.length))

/-! ## Association-list dictionary lemmas -/

section DictLemmas

variable {K : Type} [DecidableEq K]

theorem dictGet_dictSet_self (m : List (K × Nat)) (k : K) (v : Nat) :
    dictGet (dictSet m k v) k = some v := by
  induction m with
  | nil => simp [dictGet, dictSet]
  | cons hd tl ih =>
      obtain ⟨k0, v0⟩ := hd
      by_cases h : k0 = k <;> simp [dictGet, dictSet, h, ih]

theorem dictGet_dictSet_ne (m : List (K × Nat)) {k k' : K} (v : Nat) (h : k' ≠ k) :
    dictGet (dictSet m k v) k' = dictGet m k' := by
  have hkk : ¬ k = k' := fun hh => h hh.symm
  induction m with
  | nil => simp [dictGet, dictSet, hkk]
  | cons hd tl ih =>
      obtain ⟨k0, v0⟩ := hd
      by_cases h0 : k0 = k
      · subst h0
        simp [dictGet, dictSet, hkk]
      · simp only [dictSet, if_neg h0]
        by_cases h1 : k0 = k' <;> simp [dictGet, h1, ih]

theorem keys_dictSet_mem (m : List (K × Nat)) {k : K} (v : Nat)
    (h : k ∈ m.map Prod.fst) :
    (dictSet m k v).map Prod.fst = m.map Prod.fst := by
  induction m with
  | nil => simp at h
  | cons hd tl ih =>
      obtain ⟨k0, v0⟩ := hd
      by_cases h0 : k0 = k
      · simp [dictSet, h0]
      · simp only [List.map_cons, List.mem_cons] at h
        rcases h with h | h
        · exact absurd h.symm h0
        · simp [dictSet, h0, ih h]

theorem keys_dictSet_not_mem (m : List (K × Nat)) {k : K} (v : Nat)
    (h : k ∉ m.map Prod.fst) :
    (dictSet m k v).map Prod.fst = m.map Prod.fst ++ [k] := by
  induction m with
  | nil => simp [dictSet]
  | cons hd tl ih =>
      obtain ⟨k0, v0⟩ := hd
      simp only [List.map_cons, List.mem_cons, not_or] at h
      have h0 : ¬ k0 = k := fun hh => h.1 hh.symm
      simp [dictSet, h0, ih h.2]

theorem nodup_dictSet (m : List (K × Nat)) (k : K) (v : Nat)
    (h : (m.map Prod.fst).Nodup) :
    ((dictSet m k v).map Prod.fst).Nodup := by
  by_cases hm : k ∈ m.map Prod.fst
  · rw [keys_dictSet_mem m v hm]; exact h
  · rw [keys_dictSet_not_mem m v hm, List.nodup_append]
    refine ⟨h, List.nodup_singleton k, ?_⟩
    intro a ha hb
    simp only [List.mem_singleton] at hb
    subst hb
    exact hm ha

theorem dictGet_eq_none_iff (m : List (K × Nat)) (k : K) :
    dictGet m k = none ↔ k ∉ m.map Prod.fst := by
  induction m with
  | nil => simp [dictGet]
  | cons hd tl ih =>
      obtain ⟨k0, v0⟩ := hd
      by_cases h0 : k0 = k
      · subst h0
        simp [dictGet]
      · simp only [dictGet, if_neg h0, List.map_cons, List.mem_cons]
        rw [ih]
        constructor
        · intro hh
          push_neg
          exact ⟨fun he => h0 he.symm, hh⟩
        · intro hh
          push_neg at hh
          exact hh.2

theorem dictGet_isSome_iff (m : List (K × Nat)) (k : K) :
    (dictGet m k).isSome = true ↔ k ∈ m.map Prod.fst := by
  rw [Option.isSome_iff_ne_none, ne_eq, dictGet_eq_none_iff]
  exact not_not

theorem dictGet_dictRemove_ne (m : List (K × Nat)) {k k' : K} (h : k' ≠ k) :
    dictGet (dictRemove m k) k' = dictGet m k' := by
  induction m with
  | nil => simp [dictRemove]
  | cons hd tl ih =>
      obtain ⟨k0, v0⟩ := hd
      by_cases h0 : k0 = k
      · subst h0
        have hkk : ¬ k0 = k' := fun hh => h hh.symm
        simp [dictRemove, dictGet, hkk]
      · simp only [dictRemove, if_neg h0]
        by_cases h1 : k0 = k' <;> simp [dictGet, h1, ih]

theorem keys_dictRemove_sub (m : List (K × Nat)) (k : K) {a : K}
    (ha : a ∈ (dictRemove m k).map Prod.fst) : a ∈ m.map Prod.fst := by
  induction m with
  | nil => simp [dictRemove] at ha
  | cons hd tl ih =>
      obtain ⟨k0, v0⟩ := hd
      by_cases h0 : k0 = k
      · simp only [dictRemove, if_pos h0] at ha
        simp [ha]
      · simp only [dictRemove, if_neg h0, List.map_cons, List.mem_cons] at ha ⊢
        rcases ha with ha | ha
        · exact Or.inl ha
        · exact Or.inr (ih ha)

theorem nodup_dictRemove (m : List (K × Nat)) (k : K)
    (h : (m.map Prod.fst).Nodup) :
    ((dictRemove m k).map Prod.fst).Nodup := by
  induction m with
  | nil => simp [dictRemove]
  | cons hd tl ih =>
      obtain ⟨k0, v0⟩ := hd
      simp only [List.map_cons, List.nodup_cons] at h
      by_cases h0 : k0 = k
      · simp [dictRemove, h0, h.2]
      · simp only [dictRemove, if_neg h0, List.map_cons, List.nodup_cons]
        exact ⟨fun hmem => h.1 (keys_dictRemove_sub tl k hmem), ih h.2⟩

theorem dictGet_dictRemove_self (m : List (K × Nat)) (k : K)
    (h : (m.map Prod.fst).Nodup) :
    dictGet (dictRemove m k) k = none := by
  induction m with
  | nil => simp [dictRemove, dictGet]
  | cons hd tl ih =>
      obtain ⟨k0, v0⟩ := hd
      simp only [List.map_cons, List.nodup_cons] at h
      by_cases h0 : k0 = k
      · subst h0
        rw [dictGet_eq_none_iff]
        simpa [dictRemove] using h.1
      · simp [dictRemove, dictGet, h0, ih h.2]

theorem dictRemove_dictSet_ne (m : List (K × Nat)) {k bad : K} (v : Nat)
    (h : k ≠ bad) :
    dictRemove (dictSet m k v) bad = dictSet (dictRemove m bad) k v := by
  induction m with
  | nil => simp [dictRemove, dictSet, h]
  | cons hd tl ih =>
      obtain ⟨k0, v0⟩ := hd
      by_cases h0 : k0 = k
      · subst h0
        simp [dictSet, dictRemove, h]
      · by_cases h1 : k0 = bad
        · subst h1
          simp [dictSet, dictRemove, h0, fun hh => h0 hh]
        · simp [dictSet, dictRemove, h0, h1, ih]

theorem length_dictSet_mem (m : List (K × Nat)) {k : K} (v : Nat)
    (h : k ∈ m.map Prod.fst) : (dictSet m k v).length = m.length := by
  have h1 : ((dictSet m k v).map Prod.fst).length = (m.map Prod.fst).length := by
    rw [keys_dictSet_mem m v h]
  simpa using h1

theorem length_dictSet_not_mem (m : List (K × Nat)) {k : K} (v : Nat)
    (h : k ∉ m.map Prod.fst) : (dictSet m k v).length = m.length + 1 := by
  have h1 : ((dictSet m k v).map Prod.fst).length = (m.map Prod.fst ++ [k]).length := by
    rw [keys_dictSet_not_mem m v h]
  simpa using h1

theorem length_dictRemove_mem (m : List (K × Nat)) {k : K}
    (h : k ∈ m.map Prod.fst) : (dictRemove m k).length + 1 = m.length := by
  induction m with
  | nil => simp at h
  | cons hd tl ih =>
      obtain ⟨k0, v0⟩ := hd
      by_cases h0 : k0 = k
      · simp [dictRemove, h0]
      · simp only [List.map_cons, List.mem_cons] at h
        rcases h with h | h
        · exact absurd h.symm h0
        · simp [dictRemove, h0, ih h]

end DictLemmas

/-! ## List indexing utilities -/

section ListLemmas

variable {α : Type} [Inhabited α]

theorem getD_set_self (l : List α) {i : Nat} (x : α) (h : i < l.length) :
    (l.set i x).getD i default = x := by
  rw [List.getD_eq_getElem?_getD, List.getElem?_set_self (by simpa using h)]
  rfl

theorem getD_set_ne (l : List α) {i j : Nat} (x : α) (h : j ≠ i) :
    (l.set i x).getD j default = l.getD j default := by
  rw [List.getD_eq_getElem?_getD, List.getElem?_set_ne (fun hh => h hh.symm),
    ← List.getD_eq_getElem?_getD]

theorem getD_append_left (l1 l2 : List α) {i : Nat} (h : i < l1.length) :
    (l1 ++ l2).getD i default = l1.getD i default := by
  rw [List.getD_eq_getElem?_getD, List.getElem?_append, if_pos h,
    ← List.getD_eq_getElem?_getD]

theorem getD_append_end (l1 : List α) (x : α) :
    (l1 ++ [x]).getD l1.length default = x := by
  rw [List.getD_eq_getElem?_getD, List.getElem?_append, if_neg (by omega)]
  simp

theorem getD_dropLast (l : List α) {i : Nat} (h : i < l.length - 1) :
    l.dropLast.getD i default = l.getD i default := by
  rw [List.getD_eq_getElem?_getD, List.getD_eq_getElem?_getD,
    List.getElem?_eq_getElem (by simpa using h), List.getElem?_eq_getElem (by omega),
    List.getElem_dropLast]

theorem getD_mem (l : List α) {i : Nat} (h : i < l.length) :
    l.getD i default ∈ l := by
  rw [List.getD_eq_getElem?_getD, List.getElem?_eq_getElem h]
  exact List.getElem_mem h

theorem mem_iff_getD (l : List α) (x : α) :
    x ∈ l ↔ ∃ i, i < l.length ∧ l.getD i default = x := by
  constructor
  · intro h
    obtain ⟨i, hi, he⟩ := List.getElem_of_mem h
    exact ⟨i, hi, by rw [List.getD_eq_getElem?_getD, List.getElem?_eq_getElem hi, he]; rfl⟩
  · rintro ⟨i, hi, he⟩
    exact he ▸ getD_mem l hi

theorem set_getD_self (l : List α) {i : Nat} (h : i < l.length) :
    l.set i (l.getD i default) = l := by
  apply List.ext_getElem?
  intro j
  by_cases hj : j = i
  · subst hj
    rw [List.getElem?_set_self (by simpa using h), List.getD_eq_getElem?_getD,
      List.getElem?_eq_getElem h]
    rfl
  · rw [List.getElem?_set_ne (fun hh => hj hh.symm)]

theorem set_decomp (l : List α) {i : Nat} (x : α) (h : i < l.length) :
    l.set i x = l.take i ++ x :: l.drop (i + 1) := by
  rw [List.set_eq_take_append_cons_drop, if_pos h]

theorem take_cons_drop (l : List α) {i : Nat} (h : i < l.length) :
    l.take i ++ l.getD i default :: l.drop (i + 1) = l := by
  have := set_getD_self l h
  rw [set_decomp l _ h] at this
  exact this

theorem set_append_len (A : List α) (x y : α) (B : List α) :
    (A ++ x :: B).set A.length y = A ++ y :: B := by
  rw [List.set_append, if_neg (by omega)]
  simp

theorem cons_middle_swap (a b : α) (l1 l2 : List α) :
    (a :: (l1 ++ b :: l2)).Perm (b :: (l1 ++ a :: l2)) :=
  (List.Perm.cons a List.perm_middle).trans
    ((List.Perm.swap b a (l1 ++ l2)).trans (List.Perm.cons b List.perm_middle.symm))

theorem set_set_perm [DecidableEq α] (l : List α) {i j : Nat}
    (hi : i < l.length) (hj : j < l.length) :
    ((l.set i (l.getD j default)).set j (l.getD i default)).Perm l := by
  have hgi : l.getD i default = l[i] := by
    rw [List.getD_eq_getElem?_getD, List.getElem?_eq_getElem hi]; rfl
  have hgj : l.getD j default = l[j] := by
    rw [List.getD_eq_getElem?_getD, List.getElem?_eq_getElem hj]; rfl
  rw [List.perm_iff_count]
  intro a
  rw [List.count_set _ _ _ _ (by simpa using hj), List.count_set _ _ _ _ hi,
    List.getElem_set (by simpa using hj)]
  simp only [hgi, hgj, ite_self]
  have hc1 : (if (l[i] == a) = true then 1 else 0) ≤ List.count a l := by
    by_cases hia : l[i] = a
    · have h0 : 0 < List.count a l := List.count_pos_iff.2 (hia ▸ List.getElem_mem hi)
      rw [if_pos (by simp [hia])]
      omega
    · rw [if_neg (by simp [hia])]
      omega
  have hc2 : (if (l[j] == a) = true then 1 else 0) ≤ List.count a l := by
    by_cases hja : l[j] = a
    · have h0 : 0 < List.count a l := List.count_pos_iff.2 (hja ▸ List.getElem_mem hj)
      rw [if_pos (by simp [hja])]
      omega
    · rw [if_neg (by simp [hja])]
      omega
  set ci := (if (l[i] == a) = true then 1 else 0) with hci
  set cj := (if (l[j] == a) = true then 1 else 0) with hcj
  omega

theorem dropLast_getLast_perm (l : List α) (h : 0 < l.length) :
    l.Perm (l.getD (l.length - 1) default :: l.dropLast) := by
  have hne : l ≠ [] := by
    intro hl
    rw [hl] at h
    simp at h
  have hlast : l.getD (l.length - 1) default = l.getLast hne := by
    rw [List.getD_eq_getElem?_getD, List.getElem?_eq_getElem (by omega),
      List.getLast_eq_getElem]
    rfl
  rw [hlast]
  conv_lhs => rw [← List.dropLast_append_getLast hne]
  exact List.perm_append_comm.trans (by simp)

theorem dropLast_set_perm (l : List α) {pos : Nat} (h : pos + 1 < l.length) :
    l.Perm (l.getD pos default :: (l.dropLast.set pos (l.getD (l.length - 1) default))) := by
  have hdl : pos < l.dropLast.length := by
    rw [List.length_dropLast]; omega
  have hgd : l.dropLast.getD pos default = l.getD pos default :=
    getD_dropLast l (by omega)
  have hstep : l.dropLast.Perm (l.getD pos default ::
      ((l.dropLast.take pos) ++ l.dropLast.drop (pos + 1))) := by
    conv_lhs => rw [← take_cons_drop l.dropLast hdl]
    rw [hgd]
    exact List.perm_middle
  have hset : l.dropLast.set pos (l.getD (l.length - 1) default) =
      (l.dropLast.take pos) ++ l.getD (l.length - 1) default :: l.dropLast.drop (pos + 1) :=
    set_decomp _ _ hdl
  refine ((dropLast_getLast_perm l (by omega)).trans
    (List.Perm.cons _ hstep)).trans ?_
  refine (List.Perm.swap _ _ _).trans ?_
  rw [hset]
  exact List.Perm.cons _ List.perm_middle.symm

end ListLemmas

/-! ## The tree order on heap indices -/

/-- `parentIdx i` is the parent slot of heap slot `i` (the root is its own
parent). -/
def parentIdx (i : Nat) : Nat := (i - 1) / 2

/-- `Desc t i`: slot `i` lies in the subtree rooted at slot `t` (iterating
the parent map from `i` reaches `t`). -/
def Desc (t i : Nat) : Prop := ∃ k, (fun j => parentIdx j)^[k] i = t

theorem Desc.refl (t : Nat) : Desc t t := ⟨0, rfl⟩

theorem parentIdx_lt {i : Nat} (h : 0 < i) : parentIdx i < i := by
  unfold parentIdx
  omega

theorem parentIdx_child1 (i : Nat) : parentIdx (2 * i + 1) = i := by
  unfold parentIdx
  omega

theorem parentIdx_child2 (i : Nat) : parentIdx (2 * i + 2) = i := by
  unfold parentIdx
  omega

theorem parentIdx_eq_iff {c pos : Nat} (hc : 0 < c) :
    parentIdx c = pos ↔ c = 2 * pos + 1 ∨ c = 2 * pos + 2 := by
  unfold parentIdx
  omega

theorem Desc.of_parent {t i : Nat} (h : Desc t (parentIdx i)) : Desc t i := by
  obtain ⟨k, hk⟩ := h
  exact ⟨k + 1, by rw [Function.iterate_succ_apply]; exact hk⟩

theorem Desc.le {t i : Nat} (h : Desc t i) : t ≤ i := by
  obtain ⟨k, hk⟩ := h
  induction k generalizing i with
  | zero => simp at hk; omega
  | succ k ih =>
      rw [Function.iterate_succ_apply] at hk
      have := ih hk
      have hp : parentIdx i ≤ i := by unfold parentIdx; omega
      omega

theorem Desc.parent_cases {t i : Nat} (h : Desc t i) :
    i = t ∨ (t < i ∧ Desc t (parentIdx i)) := by
  by_cases hit : i = t
  · exact Or.inl hit
  · right
    obtain ⟨k, hk⟩ := h
    cases k with
    | zero => exact absurd hk hit
    | succ k =>
        rw [Function.iterate_succ_apply] at hk
        have hd : Desc t (parentIdx i) := ⟨k, hk⟩
        have h1 : t ≤ parentIdx i := hd.le
        have hp : parentIdx i ≤ i := by unfold parentIdx; omega
        have h2 : t < i := by
          rcases Nat.lt_or_ge t i with hlt | hge
          · exact hlt
          · exact absurd (by omega : i = t) hit
        exact ⟨h2, hd⟩

theorem Desc.zero (i : Nat) : Desc 0 i := by
  induction i using Nat.strong_induction_on with
  | _ i ih =>
      cases i with
      | zero => exact Desc.refl 0
      | succ n =>
          have hp : parentIdx (n + 1) < n + 1 := parentIdx_lt (by omega)
          exact (ih _ hp).of_parent

theorem Desc.trans {a b c : Nat} (hab : Desc a b) (hbc : Desc b c) : Desc a c := by
  obtain ⟨k1, hk1⟩ := hab
  obtain ⟨k2, hk2⟩ := hbc
  exact ⟨k1 + k2, by rw [Function.iterate_add_apply, hk2]; exact hk1⟩

theorem Desc.child1 {t i : Nat} (h : Desc t i) : Desc t (2 * i + 1) :=
  Desc.of_parent (by rw [parentIdx_child1]; exact h)

theorem Desc.child2 {t i : Nat} (h : Desc t i) : Desc t (2 * i + 2) :=
  Desc.of_parent (by rw [parentIdx_child2]; exact h)

theorem not_desc_of_parent_not_desc {t i : Nat} (hi : i ≠ t)
    (hp : ¬ Desc t (parentIdx i)) : ¬ Desc t i := by
  intro hd
  rcases hd.parent_cases with he | ⟨_, hdp⟩
  · exact hi he
  · exact hp hdp

theorem desc_child_of_desc {t c : Nat} (hc : 0 < c) (h : Desc t (parentIdx c)) :
    Desc t c := Desc.of_parent h

/-- Membership of the parent pins down membership of the child: if the parent
of `i` is in the subtree of `t` then so is `i`. -/
theorem Desc.of_parent_mem {t i : Nat} (h : Desc t (parentIdx i)) : Desc t i :=
  Desc.of_parent h

/-! ## Ordering contract: strict weak order on priorities -/

/-- The spec's contract on the entry ordering (`P must support a total or
strict-weak order`): asymmetry plus transitivity of incomparability.
Ordinary transitivity is derivable. -/
structure IsSWO {P : Type} (ltp : P → P → Bool) : Prop where
  asymm : ∀ a b, ltp a b = true → ltp b a = false
  negtrans : ∀ a b c, ltp a b = false → ltp b c = false → ltp a c = false

theorem IsSWO.irrefl {P : Type} {ltp : P → P → Bool} (h : IsSWO ltp) (a : P) :
    ltp a a = false := by
  cases hl : ltp a a
  · rfl
  · have h2 := h.asymm a a hl
    rw [hl] at h2
    simp at h2

theorem IsSWO.lt_trans {P : Type} {ltp : P → P → Bool} (h : IsSWO ltp) {a b c : P}
    (hab : ltp a b = true) (hbc : ltp b c = true) : ltp a c = true := by
  by_contra hac
  have hac' : ltp a c = false := by
    cases hl : ltp a c
    · rfl
    · exact absurd hl hac
  have hcb : ltp c b = false := h.asymm b c hbc
  have : ltp a b = false := h.negtrans a c b hac' hcb
  rw [this] at hab
  cases hab

theorem intLt_swo : IsSWO intLt := by
  constructor
  · intro a b h
    simp only [intLt, decide_eq_true_eq] at h
    simp only [intLt, decide_eq_false_iff_not]
    omega
  · intro a b c h1 h2
    simp only [intLt, decide_eq_false_iff_not] at h1 h2
    simp only [intLt, decide_eq_false_iff_not]
    omega

theorem intGt_swo : IsSWO intGt := by
  constructor
  · intro a b h
    simp only [intGt, decide_eq_true_eq] at h
    simp only [intGt, decide_eq_false_iff_not]
    omega
  · intro a b c h1 h2
    simp only [intGt, decide_eq_false_iff_not] at h1 h2
    simp only [intGt, decide_eq_false_iff_not]
    omega

/-! ## Invariants -/

section Invariants

variable {K P : Type} [DecidableEq K] [Inhabited K] [Inhabited P]
variable (ltp : P → P → Bool)

/-- The heap-order invariant: no entry is better than its parent under the
entry ordering. -/
def heapProp (h : List (K × P)) : Prop :=
  ∀ i, i < h.length → 0 < i →
    ltp (h.getD i default).2 (h.getD (parentIdx i) default).2 = false

/-- Coherence of the position index with the heap array: `position[k] = i`
iff `heap[i].dkey = k`, and the index has no duplicate key bindings. -/
def coh (h : List (K × P)) (m : List (K × Nat)) : Prop :=
  (∀ i, i < h.length → dictGet m (h.getD i default).1 = some i) ∧
  (∀ k i, dictGet m k = some i → i < h.length ∧ (h.getD i default).1 = k) ∧
  (m.map Prod.fst).Nodup

/-- Well-formedness of a `PQDict` state: heap order plus index coherence. -/
def WF (q : PQ K P) : Prop :=
  coh q.heap q.position ∧ heapProp ltp q.heap

theorem coh_heap_keys_nodup {h : List (K × P)} {m : List (K × Nat)}
    (hc : coh h m) : (h.map Prod.fst).Nodup := by
  rw [List.nodup_iff_injective_get]
  rintro ⟨i, hi⟩ ⟨j, hj⟩ he
  simp only [List.get_eq_getElem, List.getElem_map] at he
  simp only [List.length_map] at hi hj
  have hgi : (h.getD i default).1 = h[i].1 := by
    rw [List.getD_eq_getElem?_getD, List.getElem?_eq_getElem hi]; rfl
  have hgj : (h.getD j default).1 = h[j].1 := by
    rw [List.getD_eq_getElem?_getD, List.getElem?_eq_getElem hj]; rfl
  have h1 := hc.1 i hi
  have h2 := hc.1 j hj
  rw [hgi] at h1
  rw [hgj] at h2
  rw [he] at h1
  rw [h1] at h2
  simp only [Option.some_inj] at h2
  exact Fin.ext h2

theorem coh_mem_iff {h : List (K × P)} {m : List (K × Nat)} (hc : coh h m) (k : K) :
    k ∈ m.map Prod.fst ↔ k ∈ h.map Prod.fst := by
  constructor
  · intro hk
    rcases hg : dictGet m k with _ | i
    · rw [dictGet_eq_none_iff] at hg
      exact absurd hk hg
    · obtain ⟨hi, he⟩ := hc.2.1 k i hg
      rw [List.mem_map]
      exact ⟨h.getD i default, getD_mem h hi, he⟩
  · intro hk
    rw [List.mem_map] at hk
    obtain ⟨e, he, hek⟩ := hk
    obtain ⟨i, hi, hie⟩ := (mem_iff_getD h e).1 he
    have := hc.1 i hi
    rw [hie, hek] at this
    rw [← dictGet_isSome_iff, this]
    rfl

theorem coh_length_eq {h : List (K × P)} {m : List (K × Nat)} (hc : coh h m) :
    m.length = h.length := by
  have h1 : (m.map Prod.fst).length = m.length := by simp
  have h2 : (h.map Prod.fst).length = h.length := by simp
  rw [← h1, ← h2]
  rw [← List.toFinset_card_of_nodup hc.2.2, ← List.toFinset_card_of_nodup (coh_heap_keys_nodup hc)]
  congr 1
  ext a
  simp only [List.mem_toFinset]
  exact coh_mem_iff hc a

/-- Mid-rebalance coherence: slot `pos` is logically vacant and `e` is the
entry being carried by the loop. -/
structure Hole (h : List (K × P)) (m : List (K × Nat)) (e : K × P) (pos : Nat) : Prop where
  posLt : pos < h.length
  found : ∀ i, i < h.length → i ≠ pos → dictGet m (h.getD i default).1 = some i
  sound : ∀ k i, dictGet m k = some i →
      k = e.1 ∨ (i < h.length ∧ i ≠ pos ∧ (h.getD i default).1 = k)
  ekey : (dictGet m e.1).isSome = true
  nodup : (m.map Prod.fst).Nodup
  fresh : ∀ i, i < h.length → i ≠ pos → (h.getD i default).1 ≠ e.1

theorem hole_of_coh {h : List (K × P)} {m : List (K × Nat)} {pos : Nat}
    (hc : coh h m) (hpos : pos < h.length) :
    Hole h m (h.getD pos default) pos := by
  refine ⟨hpos, fun i hi _ => hc.1 i hi, ?_, ?_, hc.2.2, ?_⟩
  · intro k i hg
    obtain ⟨hi, he⟩ := hc.2.1 k i hg
    by_cases hip : i = pos
    · subst hip
      exact Or.inl he.symm
    · exact Or.inr ⟨hi, hip, he⟩
  · rw [hc.1 pos hpos]
    rfl
  · intro i hi hip he
    have h1 := hc.1 i hi
    have h2 := hc.1 pos hpos
    rw [he] at h1
    rw [h1] at h2
    simp only [Option.some_inj] at h2
    exact hip h2

/-- Filling the hole restores coherence. -/
theorem coh_fill {h : List (K × P)} {m : List (K × Nat)} {e : K × P} {pos : Nat}
    (hh : Hole h m e pos) :
    coh (h.set pos e) (dictSet m e.1 pos) := by
  obtain ⟨hpos, hfound, hsound, hekey, hnodup, hfresh⟩ := hh
  refine ⟨?_, ?_, nodup_dictSet m e.1 pos hnodup⟩
  · intro i hi
    rw [List.length_set] at hi
    by_cases hip : i = pos
    · subst hip
      rw [getD_set_self h e hpos, dictGet_dictSet_self]
    · rw [getD_set_ne h e hip, dictGet_dictSet_ne m pos (hfresh i hi hip)]
      exact hfound i hi hip
  · intro k i hg
    by_cases hke : k = e.1
    · subst hke
      rw [dictGet_dictSet_self] at hg
      simp only [Option.some_inj] at hg
      subst hg
      rw [List.length_set, getD_set_self h e hpos]
      exact ⟨hpos, rfl⟩
    · rw [dictGet_dictSet_ne m pos hke] at hg
      rcases hsound k i hg with he | ⟨hi, hip, hkey⟩
      · exact absurd he hke
      · rw [List.length_set, getD_set_ne h e hip]
        exact ⟨hi, hkey⟩

/-- Moving the hole one slot: the occupant of slot `src` is copied into the
vacant slot `pos` (with its index binding updated), vacating `src`. -/
theorem hole_move {h : List (K × P)} {m : List (K × Nat)} {e : K × P} {pos src : Nat}
    (hh : Hole h m e pos) (hsrc : src < h.length) (hne : src ≠ pos) :
    Hole (h.set pos (h.getD src default))
      (dictSet m (h.getD src default).1 pos) e src := by
  obtain ⟨hpos, hfound, hsound, hekey, hnodup, hfresh⟩ := hh
  have hkey_ne : (h.getD src default).1 ≠ e.1 := hfresh src hsrc hne
  have hsrc_get : dictGet m (h.getD src default).1 = some src := hfound src hsrc hne
  refine ⟨by simpa using hsrc, ?_, ?_, ?_, nodup_dictSet m _ pos hnodup, ?_⟩
  · intro i hi hisrc
    rw [List.length_set] at hi
    by_cases hip : i = pos
    · subst hip
      rw [getD_set_self h _ hpos, dictGet_dictSet_self]
    · rw [getD_set_ne h _ hip]
      have hikey : (h.getD i default).1 ≠ (h.getD src default).1 := by
        intro he
        have h1 := hfound i hi hip
        rw [he, hsrc_get] at h1
        simp only [Option.some_inj] at h1
        exact hisrc h1.symm
      rw [dictGet_dictSet_ne m pos hikey]
      exact hfound i hi hip
  · intro k i hg
    by_cases hk : k = (h.getD src default).1
    · subst hk
      rw [dictGet_dictSet_self] at hg
      simp only [Option.some_inj] at hg
      subst hg
      right
      refine ⟨by simpa using hpos, fun hh => hne hh.symm, ?_⟩
      rw [getD_set_self h _ hpos]
    · rw [dictGet_dictSet_ne m pos hk] at hg
      rcases hsound k i hg with he | ⟨hi, hip, hkey⟩
      · exact Or.inl he
      · right
        refine ⟨by simpa using hi, ?_, ?_⟩
        · intro hisrc
          subst hisrc
          exact hk hkey.symm
        · rw [getD_set_ne h _ hip]
          exact hkey
  · rw [dictGet_dictSet_ne m pos (fun hh => hkey_ne hh.symm)]
    exact hekey
  · intro i hi hisrc
    rw [List.length_set] at hi
    by_cases hip : i = pos
    · subst hip
      rw [getD_set_self h _ hpos]
      exact hkey_ne
    · rw [getD_set_ne h _ hip]
      exact hfresh i hi hip

theorem hole_swimLoop (ltp : P → P → Bool) (fuel : Nat)
    {h : List (K × P)} {m : List (K × Nat)} {e : K × P} {pos : Nat} (top : Nat)
    (hh : Hole h m e pos) :
    coh (swimLoop ltp fuel h m e pos top).1 (swimLoop ltp fuel h m e pos top).2 := by
  induction fuel generalizing h m pos with
  | zero => exact coh_fill hh
  | succ fuel ih =>
      simp only [swimLoop]
      by_cases htop : top < pos
      · rw [if_pos htop]
        by_cases hlt : ltp e.2 (h.getD ((pos - 1) / 2) default).2 = true
        · rw [if_pos hlt]
          have hparent : (pos - 1) / 2 < h.length := by
            have := hh.posLt
            omega
          exact ih (hole_move hh hparent (by omega))
        · rw [if_neg hlt]
          exact coh_fill hh
      · rw [if_neg htop]
        exact coh_fill hh

theorem hole_sinkChain (ltp : P → P → Bool) (fuel : Nat)
    {h : List (K × P)} {m : List (K × Nat)} {e : K × P} {pos : Nat} {endpos : Nat}
    (hend : endpos = h.length) (hh : Hole h m e pos) :
    Hole (sinkChain ltp fuel h m pos endpos).1 (sinkChain ltp fuel h m pos endpos).2.1 e
      (sinkChain ltp fuel h m pos endpos).2.2 ∧
    (sinkChain ltp fuel h m pos endpos).1.length = h.length := by
  induction fuel generalizing h m pos with
  | zero => exact ⟨hh, rfl⟩
  | succ fuel ih =>
      simp only [sinkChain]
      by_cases hchild : 2 * pos + 1 < endpos
      · rw [if_pos hchild]
        set cpos := if (2 * pos + 1 + 1 < endpos &&
            !(ltp (h.getD (2 * pos + 1) default).2 (h.getD (2 * pos + 1 + 1) default).2)) = true
          then 2 * pos + 1 + 1 else 2 * pos + 1 with hcpos
        have hcpos_lt : cpos < h.length := by
          rw [hcpos]
          by_cases hb : (2 * pos + 1 + 1 < endpos &&
              !(ltp (h.getD (2 * pos + 1) default).2 (h.getD (2 * pos + 1 + 1) default).2)) = true
          · rw [if_pos hb]
            simp only [Bool.and_eq_true, decide_eq_true_eq] at hb
            omega
          · rw [if_neg hb]
            omega
        have hcpos_ne : cpos ≠ pos := by
          rw [hcpos]
          split <;> omega
        have := ih (by simp [hend] : endpos = (h.set pos (h.getD cpos default)).length)
          (hole_move hh hcpos_lt hcpos_ne)
        simpa using this
      · rw [if_neg hchild]
        exact ⟨hh, rfl⟩

theorem coh_swim (ltp : P → P → Bool) {h : List (K × P)} {m : List (K × Nat)}
    {pos : Nat} (top : Nat) (hc : coh h m) (hpos : pos < h.length) :
    coh (swim ltp h m pos top).1 (swim ltp h m pos top).2 := by
  unfold swim
  exact hole_swimLoop ltp pos top (hole_of_coh hc hpos)

theorem swimLoop_length (ltp : P → P → Bool) (fuel : Nat)
    (h : List (K × P)) (m : List (K × Nat)) (e : K × P) (pos top : Nat) :
    (swimLoop ltp fuel h m e pos top).1.length = h.length := by
  induction fuel generalizing h m pos with
  | zero => simp [swimLoop]
  | succ fuel ih =>
      simp only [swimLoop]
      split
      · split
        · rw [ih]
          simp
        · simp
      · simp

theorem sinkChain_length (ltp : P → P → Bool) (fuel : Nat)
    (h : List (K × P)) (m : List (K × Nat)) (pos endpos : Nat) :
    (sinkChain ltp fuel h m pos endpos).1.length = h.length := by
  induction fuel generalizing h m pos with
  | zero => simp [sinkChain]
  | succ fuel ih =>
      simp only [sinkChain]
      split
      · rw [ih]
        simp
      · simp

theorem swim_length (ltp : P → P → Bool) (h : List (K × P)) (m : List (K × Nat))
    (pos top : Nat) : (swim ltp h m pos top).1.length = h.length := by
  unfold swim
  rw [swimLoop_length]

theorem sink_length (ltp : P → P → Bool) (h : List (K × P)) (m : List (K × Nat))
    (top : Nat) : (sink ltp h m top).1.length = h.length := by
  simp only [sink]
  rcases hsc : sinkChain ltp h.length h m top h.length with ⟨h1, m1, pos⟩
  simp only [hsc]
  rw [swim_length, List.length_set]
  have hlen := sinkChain_length ltp h.length h m top h.length
  rw [hsc] at hlen
  simpa using hlen

theorem coh_sink (ltp : P → P → Bool) {h : List (K × P)} {m : List (K × Nat)}
    {top : Nat} (hc : coh h m) (htop : top < h.length) :
    coh (sink ltp h m top).1 (sink ltp h m top).2 := by
  simp only [sink]
  rcases hsc : sinkChain ltp h.length h m top h.length with ⟨h1, m1, pos⟩
  simp only [hsc]
  have hchain := hole_sinkChain ltp h.length rfl (hole_of_coh hc htop)
  rw [hsc] at hchain
  simp only [] at hchain
  have hhole : Hole h1 m1 (h.getD top default) pos := hchain.1
  have hlen : h1.length = h.length := hchain.2
  have hcfill : coh (h1.set pos (h.getD top default))
      (dictSet m1 (h.getD top default).1 pos) := coh_fill hhole
  have hpos_lt : pos < (h1.set pos (h.getD top default)).length := by
    rw [List.length_set, hlen]
    exact hlen ▸ hhole.posLt
  unfold swim
  exact hole_swimLoop ltp pos top (hole_of_coh hcfill hpos_lt)

/-! ## Heap-order preservation: swim -/

theorem swo_shield {ltp : P → P → Bool} (hswo : IsSWO ltp) {a b p : P}
    (h1 : ltp a p = false) (h2 : ltp b p = true) : ltp a b = false := by
  cases hab : ltp a b
  · rfl
  · have := hswo.lt_trans hab h2
    rw [h1] at this
    simp at this

theorem swimLoop_heap [DecidableEq P] {ltp : P → P → Bool} (hswo : IsSWO ltp)
    (fuel : Nat) :
    ∀ (h : List (K × P)) (m : List (K × Nat)) (e : K × P) (pos top : Nat),
    pos ≤ fuel → pos < h.length → Desc top pos →
    (∀ i, i < h.length → Desc top i → i ≠ top → i ≠ pos → 0 < i →
        ltp ((h.set pos e).getD i default).2
          ((h.set pos e).getD (parentIdx i) default).2 = false) →
    (top < pos → ∀ c, c < h.length → parentIdx c = pos → 0 < c →
        ltp ((h.set pos e).getD c default).2
          ((h.set pos e).getD (parentIdx pos) default).2 = false) →
    (∀ i, i < h.length → Desc top i → i ≠ top → 0 < i →
        ltp ((swimLoop ltp fuel h m e pos top).1.getD i default).2
          ((swimLoop ltp fuel h m e pos top).1.getD (parentIdx i) default).2 = false) ∧
    ((swimLoop ltp fuel h m e pos top).1.getD top default =
        (h.set pos e).getD top default ∨
      (swimLoop ltp fuel h m e pos top).1.getD top default = e) ∧
    (∀ i, i < h.length → ¬ Desc top i →
        (swimLoop ltp fuel h m e pos top).1.getD i default = h.getD i default) ∧
    ((swimLoop ltp fuel h m e pos top).1.Perm (h.set pos e)) := by
  induction fuel with
  | zero =>
      intro h m e pos top hfuel hpos hdesc hS2 hS3
      have hpos0 : pos = 0 := by omega
      subst hpos0
      have htop0 : top = 0 := by
        have := hdesc.le
        omega
      subst htop0
      simp only [swimLoop]
      refine ⟨?_, ?_, ?_, List.Perm.refl _⟩
      · intro i hi hdi hit h0i
        exact hS2 i hi hdi hit (by omega) h0i
      · exact Or.inr (getD_set_self h e hpos)
      · intro i _ hndesc
        exact absurd (Desc.zero i) hndesc
  | succ fuel ih =>
      intro h m e pos top hfuel hpos hdesc hS2 hS3
      simp only [swimLoop]
      by_cases htop : top < pos
      · rw [if_pos htop]
        by_cases hlt : ltp e.2 (h.getD ((pos - 1) / 2) default).2 = true
        · rw [if_pos hlt]
          -- recursive case: the parent sifts down into `pos`, the hole moves up
          have hppos : (pos - 1) / 2 = parentIdx pos := rfl
          have hpar_lt : parentIdx pos < pos := parentIdx_lt (by omega)
          have hpar_len : parentIdx pos < h.length := by omega
          have hdesc' : Desc top (parentIdx pos) := by
            rcases hdesc.parent_cases with he | ⟨_, hd⟩
            · omega
            · exact hd
          -- notation: g = h.set pos e, parentE = h[parentIdx pos]
          have hg_par : (h.set pos e).getD (parentIdx pos) default =
              h.getD (parentIdx pos) default :=
            getD_set_ne h e (by omega)
          have hg_pos : (h.set pos e).getD pos default = e := getD_set_self h e hpos
          -- the new heap and the new conceptual state g'
          rw [hppos]
          have hlen' : (h.set pos (h.getD (parentIdx pos) default)).length = h.length := by
            simp
          -- g' described slotwise
          have hg'_at : ∀ j, j ≠ pos → j ≠ parentIdx pos →
              ((h.set pos (h.getD (parentIdx pos) default)).set (parentIdx pos) e).getD j
                default = h.getD j default := by
            intro j hj1 hj2
            rw [getD_set_ne _ e hj2, getD_set_ne h _ hj1]
          have hg'_pos :
              ((h.set pos (h.getD (parentIdx pos) default)).set (parentIdx pos) e).getD pos
                default = h.getD (parentIdx pos) default := by
            rw [getD_set_ne _ e (by omega), getD_set_self h _ hpos]
          have hg'_par :
              ((h.set pos (h.getD (parentIdx pos) default)).set (parentIdx pos) e).getD
                (parentIdx pos) default = e :=
            getD_set_self _ e (by simpa using hpar_len)
          -- edge hypotheses for the recursive call
          have hS2' : ∀ i, i < (h.set pos (h.getD (parentIdx pos) default)).length →
              Desc top i → i ≠ top → i ≠ parentIdx pos → 0 < i →
              ltp (((h.set pos (h.getD (parentIdx pos) default)).set (parentIdx pos) e).getD
                  i default).2
                (((h.set pos (h.getD (parentIdx pos) default)).set (parentIdx pos) e).getD
                  (parentIdx i) default).2 = false := by
            intro i hi hdi hit hipar h0i
            rw [hlen'] at hi
            by_cases hip : i = pos
            · -- edge (pos, parentIdx pos) : parentE vs e, by asymmetry
              subst hip
              rw [hg'_pos, hg'_par]
              rw [hppos] at hlt
              exact hswo.asymm _ _ hlt
            · by_cases hpi : parentIdx i = parentIdx pos
              · -- sibling of pos (or pos itself, excluded): vs e
                rw [hg'_at i hip hipar, hpi, hg'_par]
                have hSedge := hS2 i hi hdi hit hip h0i
                rw [getD_set_ne h e hip, hpi, hg_par] at hSedge
                have hlt' : ltp e.2 (h.getD (parentIdx pos) default).2 = true := by
                  rw [← hppos]; exact hlt
                exact swo_shield hswo hSedge hlt'
              · by_cases hchild : parentIdx i = pos
                · -- child of pos : vs parentE, from the grandparent hypothesis hS3
                  rw [hg'_at i hip hipar, hchild, hg'_pos]
                  have hSg := hS3 htop i hi hchild h0i
                  rw [getD_set_ne h e hip, hg_par] at hSg
                  exact hSg
                · -- untouched edge
                  rw [hg'_at i hip hipar, hg'_at (parentIdx i) hchild hpi]
                  have hSedge := hS2 i hi hdi hit hip h0i
                  rw [getD_set_ne h e hip, getD_set_ne h e hchild] at hSedge
                  exact hSedge
          have hS3' : top < parentIdx pos →
              ∀ c, c < (h.set pos (h.getD (parentIdx pos) default)).length →
              parentIdx c = parentIdx pos → 0 < c →
              ltp (((h.set pos (h.getD (parentIdx pos) default)).set (parentIdx pos) e).getD
                  c default).2
                (((h.set pos (h.getD (parentIdx pos) default)).set (parentIdx pos) e).getD
                  (parentIdx (parentIdx pos)) default).2 = false := by
            intro htop' c hc hpc h0c
            rw [hlen'] at hc
            have hgp_lt : parentIdx (parentIdx pos) < parentIdx pos := parentIdx_lt (by omega)
            have hgp_ne_pos : parentIdx (parentIdx pos) ≠ pos := by omega
            have hgp_ne_par : parentIdx (parentIdx pos) ≠ parentIdx pos := by omega
            have hc_ne_par : c ≠ parentIdx pos := by
              intro hcc
              rw [hcc] at hpc
              have := parentIdx_lt h0c
              omega
            rw [hg'_at (parentIdx (parentIdx pos)) hgp_ne_pos hgp_ne_par]
            -- edge (parentIdx pos, grandparent) in g
            have hedge_par := hS2 (parentIdx pos) hpar_len hdesc'
              (by omega) (by omega) (by omega)
            rw [hg_par, getD_set_ne h e hgp_ne_pos] at hedge_par
            by_cases hcp : c = pos
            · -- the old hole slot now holds parentE
              subst hcp
              rw [hg'_pos]
              exact hedge_par
            · -- sibling of pos under parentIdx pos
              rw [hg'_at c hcp hc_ne_par]
              have hdc : Desc top c := Desc.of_parent (hpc ▸ hdesc')
              have hcpar := parentIdx_lt h0c
              have hedge_c := hS2 c hc hdc (by omega) hcp h0c
              rw [getD_set_ne h e hcp, hpc, hg_par] at hedge_c
              exact hswo.negtrans _ _ _ hedge_c hedge_par
          obtain ⟨ihA, ihB, ihC, ihD⟩ := ih (h.set pos (h.getD (parentIdx pos) default))
            (dictSet m (h.getD (parentIdx pos) default).1 pos) e (parentIdx pos) top
            (by omega) (by simpa using hpar_len) hdesc' hS2' hS3'
          refine ⟨?_, ?_, ?_, ?_⟩
          · intro i hi hdi hit h0i
            exact ihA i (by simpa using hi) hdi hit h0i
          · rcases ihB with hB | hB
            · by_cases htp : top = parentIdx pos
              · right
                rw [hB, htp, hg'_par]
              · left
                rw [hB]
                have htop_ne_pos : top ≠ pos := by omega
                rw [hg'_at top htop_ne_pos htp, getD_set_ne h e htop_ne_pos]
            · exact Or.inr hB
          · intro i hi hndesc
            have hip : i ≠ pos := fun hh => hndesc (hh ▸ hdesc)
            rw [ihC i (by simpa using hi) hndesc, getD_set_ne h _ hip]
          · -- permutation: g' is a transposition of g
            have hg'_eq : (h.set pos (h.getD (parentIdx pos) default)).set (parentIdx pos) e =
                ((h.set pos e).set pos ((h.set pos e).getD (parentIdx pos) default)).set
                  (parentIdx pos) ((h.set pos e).getD pos default) := by
              rw [hg_pos, hg_par, List.set_set]
            refine ihD.trans ?_
            rw [hg'_eq]
            exact set_set_perm (h.set pos e) (by simpa using hpos) (by simpa using hpar_len)
        · rw [if_neg hlt]
          have hlt' : ltp e.2 (h.getD ((pos - 1) / 2) default).2 = false := by
            cases hx : ltp e.2 (h.getD ((pos - 1) / 2) default).2
            · rfl
            · exact absurd hx hlt
          refine ⟨?_, ?_, ?_, List.Perm.refl _⟩
          · intro i hi hdi hit h0i
            by_cases hip : i = pos
            · subst hip
              rw [getD_set_self h e hpos, getD_set_ne h e (by
                  have := parentIdx_lt (show 0 < i by omega)
                  omega)]
              rw [show parentIdx i = (i - 1) / 2 from rfl]
              exact hlt'
            · exact hS2 i hi hdi hit hip h0i
          · left; rfl
          · intro i hi hndesc
            have hip : i ≠ pos := fun hh => hndesc (hh ▸ hdesc)
            rw [getD_set_ne h e hip]
      · rw [if_neg htop]
        have hpt : pos = top := by
          have := hdesc.le
          omega
        subst hpt
        refine ⟨?_, ?_, ?_, List.Perm.refl _⟩
        · intro i hi hdi hit h0i
          exact hS2 i hi hdi hit (fun hh => hit hh) h0i
        · exact Or.inr (getD_set_self h e hpos)
        · intro i hi hndesc
          have hip : i ≠ pos := fun hh => hndesc (hh ▸ hdesc)
          rw [getD_set_ne h e hip]

/-! ## Heap-order preservation: sink chain -/

theorem sinkChain_heap [DecidableEq P] {ltp : P → P → Bool} (hswo : IsSWO ltp)
    (h0 : List (K × P)) (top endpos : Nat) (fuel : Nat) :
    ∀ (h : List (K × P)) (m : List (K × Nat)) (pos : Nat),
    endpos = h.length → h0.length = h.length → pos < endpos → Desc top pos →
    endpos - pos ≤ fuel →
    (∀ i, i < endpos → (¬ Desc top i ∨ ¬ Desc i pos ∨ i = pos) →
        h.getD i default = h0.getD i default) →
    (∀ i, i < endpos → Desc top i → i ≠ top → i ≠ pos → parentIdx i ≠ pos → 0 < i →
        ltp (h.getD i default).2 (h.getD (parentIdx i) default).2 = false) →
    (top < pos → ∀ c, c < endpos → parentIdx c = pos → 0 < c →
        ltp (h.getD c default).2 (h.getD (parentIdx pos) default).2 = false) →
    (∀ i, i < endpos → Desc top i →
        ∃ j, Desc top j ∧ j < endpos ∧ h.getD i default = h0.getD j default) →
    ((h.set pos (h0.getD top default)).Perm h0) →
    ((sinkChain ltp fuel h m pos endpos).1.length = endpos) ∧
    ((sinkChain ltp fuel h m pos endpos).2.2 < endpos ∧
      Desc top (sinkChain ltp fuel h m pos endpos).2.2) ∧
    (endpos ≤ 2 * (sinkChain ltp fuel h m pos endpos).2.2 + 1) ∧
    (∀ i, i < endpos → ¬ Desc top i →
        (sinkChain ltp fuel h m pos endpos).1.getD i default = h0.getD i default) ∧
    (∀ i, i < endpos → Desc top i → i ≠ top → i ≠ (sinkChain ltp fuel h m pos endpos).2.2 →
        parentIdx i ≠ (sinkChain ltp fuel h m pos endpos).2.2 → 0 < i →
        ltp ((sinkChain ltp fuel h m pos endpos).1.getD i default).2
          ((sinkChain ltp fuel h m pos endpos).1.getD (parentIdx i) default).2 = false) ∧
    (∀ i, i < endpos → Desc top i →
        ∃ j, Desc top j ∧ j < endpos ∧
          (sinkChain ltp fuel h m pos endpos).1.getD i default = h0.getD j default) ∧
    (((sinkChain ltp fuel h m pos endpos).1.set (sinkChain ltp fuel h m pos endpos).2.2
        (h0.getD top default)).Perm h0) := by
  induction fuel with
  | zero =>
      intro h m pos hlen hlen0 hpos hdesc hfuel hI2 hI3 hI4 hI5 hI6
      omega
  | succ fuel ih =>
      intro h m pos hlen hlen0 hpos hdesc hfuel hI2 hI3 hI4 hI5 hI6
      simp only [sinkChain]
      by_cases hchild : 2 * pos + 1 < endpos
      · rw [if_pos hchild]
        set cpos := if (2 * pos + 1 + 1 < endpos &&
            !(ltp (h.getD (2 * pos + 1) default).2 (h.getD (2 * pos + 1 + 1) default).2)) = true
          then 2 * pos + 1 + 1 else 2 * pos + 1 with hcpos
        have hsel : (cpos = 2 * pos + 2 ∧ 2 * pos + 2 < endpos ∧
              ltp (h.getD (2 * pos + 1) default).2 (h.getD (2 * pos + 2) default).2 = false) ∨
            (cpos = 2 * pos + 1 ∧ (2 * pos + 2 < endpos →
              ltp (h.getD (2 * pos + 1) default).2 (h.getD (2 * pos + 2) default).2 = true)) := by
          rw [hcpos]
          by_cases hb : (2 * pos + 1 + 1 < endpos &&
              !(ltp (h.getD (2 * pos + 1) default).2 (h.getD (2 * pos + 1 + 1) default).2)) = true
          · rw [if_pos hb]
            simp only [Bool.and_eq_true, Bool.not_eq_true', decide_eq_true_eq] at hb
            exact Or.inl ⟨by omega, by omega, by
              have := hb.2
              simpa using this⟩
          · rw [if_neg hb]
            simp only [Bool.and_eq_true, Bool.not_eq_true', decide_eq_true_eq, not_and] at hb
            refine Or.inr ⟨rfl, fun h2 => ?_⟩
            have := hb (by omega)
            cases hx : ltp (h.getD (2 * pos + 1) default).2 (h.getD (2 * pos + 2) default).2
            · rw [show (2 * pos + 1 + 1) = 2 * pos + 2 from rfl] at this
              rw [hx] at this
              simp at this
            · rfl
        have hcpos_lt : cpos < endpos := by
          rcases hsel with ⟨he, hb, _⟩ | ⟨he, _⟩ <;> omega
        have hcpos_gt : pos < cpos := by
          rcases hsel with ⟨he, _, _⟩ | ⟨he, _⟩ <;> omega
        have hcpar : parentIdx cpos = pos := by
          rcases hsel with ⟨he, _, _⟩ | ⟨he, _⟩
          · rw [he, parentIdx_child2]
          · rw [he, parentIdx_child1]
        have hcdesc : Desc top cpos := Desc.of_parent (hcpar ▸ hdesc)
        have hlen' : endpos = (h.set pos (h.getD cpos default)).length := by
          simpa using hlen
        have hlen0' : h0.length = (h.set pos (h.getD cpos default)).length := by
          simpa using hlen0
        have hne_cp : cpos ≠ pos := by omega
        -- the new state agrees with h off pos
        have hat : ∀ j, j ≠ pos →
            (h.set pos (h.getD cpos default)).getD j default = h.getD j default := by
          intro j hj
          exact getD_set_ne h _ hj
        have hat_pos : (h.set pos (h.getD cpos default)).getD pos default =
            h.getD cpos default := getD_set_self h _ (by omega)
        -- I2'
        have hI2' : ∀ i, i < endpos → (¬ Desc top i ∨ ¬ Desc i cpos ∨ i = cpos) →
            (h.set pos (h.getD cpos default)).getD i default = h0.getD i default := by
          intro i hi hcond
          by_cases hip : i = pos
          · exfalso
            subst hip
            rcases hcond with hc | hc | hc
            · exact hc hdesc
            · exact hc (Desc.of_parent (hcpar ▸ Desc.refl i))
            · omega
          · rw [hat i hip]
            refine hI2 i hi ?_
            rcases hcond with hc | hc | hc
            · exact Or.inl hc
            · refine Or.inr (Or.inl fun hd => hc ?_)
              exact hd.trans (Desc.of_parent (hcpar ▸ Desc.refl pos))
            · subst hc
              refine Or.inr (Or.inl fun hd => ?_)
              have := hd.le
              omega
        -- I3'
        have hI3' : ∀ i, i < endpos → Desc top i → i ≠ top → i ≠ cpos →
            parentIdx i ≠ cpos → 0 < i →
            ltp ((h.set pos (h.getD cpos default)).getD i default).2
              ((h.set pos (h.getD cpos default)).getD (parentIdx i) default).2 = false := by
          intro i hi hdi hit hicp hpicp h0i
          by_cases hip : i = pos
          · -- edge (pos, parentIdx pos): the hoisted child against the old parent chain
            have htpos : top < pos := by
              rcases hdesc.parent_cases with he | ⟨hlt2, _⟩
              · exfalso
                apply hit
                omega
              · exact hlt2
            have hpar_lt2 : parentIdx pos < pos := parentIdx_lt (by omega)
            rw [hip, hat_pos, hat (parentIdx pos) (by omega)]
            exact hI4 htpos cpos hcpos_lt hcpar (by omega)
          · by_cases hpipos : parentIdx i = pos
            · -- sibling of the hoisted child
              rw [hat i hip, hpipos, hat_pos]
              have hi_child : i = 2 * pos + 1 ∨ i = 2 * pos + 2 :=
                (parentIdx_eq_iff h0i).1 hpipos
              rcases hsel with ⟨he, hb, hsl⟩ | ⟨he, hsl⟩
              · -- cpos = 2pos+2 chosen because not (l < o):  sibling is l
                have hil : i = 2 * pos + 1 := by
                  rcases hi_child with hh | hh
                  · exact hh
                  · omega
                rw [hil, he]
                exact hsl
              · -- cpos = 2pos+1 chosen: sibling is o (in range since i < endpos)
                have hio : i = 2 * pos + 2 := by
                  rcases hi_child with hh | hh
                  · omega
                  · exact hh
                rw [hio, he]
                exact hswo.asymm _ _ (hsl (by omega))
            · -- untouched edge
              rw [hat i hip, hat (parentIdx i) hpipos]
              exact hI3 i hi hdi hit hip hpipos h0i
        -- I4'
        have hI4' : top < cpos → ∀ c, c < endpos → parentIdx c = cpos → 0 < c →
            ltp ((h.set pos (h.getD cpos default)).getD c default).2
              ((h.set pos (h.getD cpos default)).getD (parentIdx cpos) default).2 = false := by
          intro _ c hc hpc h0c
          have hc_gt : cpos < c := by
            have := parentIdx_lt h0c
            omega
          have hc_ne : c ≠ pos := by omega
          rw [hat c hc_ne, hcpar, hat_pos]
          have hdc : Desc top c := Desc.of_parent (hpc ▸ hcdesc)
          have := hI3 c hc hdc (by omega) (by omega) (by rw [hpc]; omega) h0c
          rw [hpc] at this
          exact this
        -- I5'
        have hI5' : ∀ i, i < endpos → Desc top i →
            ∃ j, Desc top j ∧ j < endpos ∧
              (h.set pos (h.getD cpos default)).getD i default = h0.getD j default := by
          intro i hi hdi
          by_cases hip : i = pos
          · subst hip
            rw [hat_pos]
            exact hI5 cpos hcpos_lt hcdesc
          · rw [hat i hip]
            exact hI5 i hi hdi
        -- I6'
        have hI6' : ((h.set pos (h.getD cpos default)).set cpos (h0.getD top default)).Perm h0 := by
          have he1 : h.getD cpos default = (h.set pos (h0.getD top default)).getD cpos default :=
            (getD_set_ne h _ hne_cp).symm
          have he2 : h0.getD top default =
              (h.set pos (h0.getD top default)).getD pos default :=
            (getD_set_self h _ (by omega)).symm
          have hstep : (h.set pos (h.getD cpos default)).set cpos (h0.getD top default) =
              ((h.set pos (h0.getD top default)).set pos
                  ((h.set pos (h0.getD top default)).getD cpos default)).set cpos
                ((h.set pos (h0.getD top default)).getD pos default) := by
            rw [← he1, ← he2, List.set_set]
          rw [hstep]
          exact (set_set_perm (h.set pos (h0.getD top default))
            (by simp; omega) (by simp; omega)).trans hI6
        have := ih (h.set pos (h.getD cpos default))
          (dictSet m (h.getD cpos default).1 pos) cpos hlen' hlen0'
          hcpos_lt hcdesc (by omega) hI2' hI3' hI4' hI5' hI6'
        exact this
      · rw [if_neg hchild]
        refine ⟨hlen.symm, ⟨hpos, hdesc⟩, by change endpos ≤ 2 * pos + 1; omega, ?_, ?_, hI5, hI6⟩
        · intro i hi hnd
          refine hI2 i hi (Or.inl hnd)
        · intro i hi hdi hit hip hpip h0i
          exact hI3 i hi hdi hit hip hpip h0i

theorem sink_heap [DecidableEq P] {ltp : P → P → Bool} (hswo : IsSWO ltp)
    (h : List (K × P)) (m : List (K × Nat)) (top : Nat) (htop : top < h.length)
    (ha : ∀ i, i < h.length → Desc top i → i ≠ top → parentIdx i ≠ top → 0 < i →
        ltp (h.getD i default).2 (h.getD (parentIdx i) default).2 = false) :
    (∀ i, i < h.length → Desc top i → i ≠ top → 0 < i →
        ltp ((sink ltp h m top).1.getD i default).2
          ((sink ltp h m top).1.getD (parentIdx i) default).2 = false) ∧
    (∀ i, i < h.length → ¬ Desc top i →
        (sink ltp h m top).1.getD i default = h.getD i default) ∧
    ((sink ltp h m top).1.Perm h) ∧
    (∀ X : P, (∀ i, i < h.length → Desc top i → ltp (h.getD i default).2 X = false) →
        ltp ((sink ltp h m top).1.getD top default).2 X = false) := by
  simp only [sink]
  rcases hsc : sinkChain ltp h.length h m top h.length with ⟨h1, m1, posf⟩
  simp only [hsc]
  unfold swim
  have hchain := sinkChain_heap hswo h top h.length h.length h m top rfl rfl htop
    (Desc.refl top) (Nat.sub_le _ _) (fun i _ _ => rfl)
    (fun i hi hdi hit hip hpip h0i => ha i hi hdi hit hpip h0i)
    (fun hcon => absurd hcon (lt_irrefl top))
    (fun i hi hdi => ⟨i, hdi, hi, rfl⟩)
    (by rw [set_getD_self h htop])
  rw [hsc] at hchain
  obtain ⟨hO1, ⟨hO2a, hO2b⟩, hO3, hO4, hO5, hO7, hO8⟩ := hchain
  have hO1' : h1.length = h.length := hO1
  have hO2a' : posf < h.length := hO2a
  have hO3' : h.length ≤ 2 * posf + 1 := hO3
  have hgf_len : (h1.set posf (h.getD top default)).length = h.length := by
    simpa using hO1'
  have hgf_posf : (h1.set posf (h.getD top default)).getD posf default =
      h.getD top default := getD_set_self h1 _ (by omega)
  have hgfs : (h1.set posf (h.getD top default)).set posf
      ((h1.set posf (h.getD top default)).getD posf default) =
      h1.set posf (h.getD top default) :=
    set_getD_self _ (by omega)
  have hS2 : ∀ i, i < (h1.set posf (h.getD top default)).length → Desc top i →
      i ≠ top → i ≠ posf → 0 < i →
      ltp (((h1.set posf (h.getD top default)).set posf
          ((h1.set posf (h.getD top default)).getD posf default)).getD i default).2
        (((h1.set posf (h.getD top default)).set posf
          ((h1.set posf (h.getD top default)).getD posf default)).getD (parentIdx i)
          default).2 = false := by
    intro i hi hdi hit hiposf h0i
    rw [hgf_len] at hi
    rw [hgfs]
    by_cases hpi : parentIdx i = posf
    · exfalso
      have := (parentIdx_eq_iff h0i).1 hpi
      omega
    · rw [getD_set_ne h1 _ hiposf, getD_set_ne h1 _ hpi]
      exact hO5 i hi hdi hit hiposf hpi h0i
  have hS3 : top < posf → ∀ c, c < (h1.set posf (h.getD top default)).length →
      parentIdx c = posf → 0 < c →
      ltp (((h1.set posf (h.getD top default)).set posf
          ((h1.set posf (h.getD top default)).getD posf default)).getD c default).2
        (((h1.set posf (h.getD top default)).set posf
          ((h1.set posf (h.getD top default)).getD posf default)).getD (parentIdx posf)
          default).2 = false := by
    intro _ c hc hpc h0c
    exfalso
    rw [hgf_len] at hc
    have := (parentIdx_eq_iff h0c).1 hpc
    omega
  obtain ⟨wA, wB, wC, wD⟩ := swimLoop_heap hswo posf (h1.set posf (h.getD top default))
    (dictSet m1 (h.getD top default).1 posf)
    ((h1.set posf (h.getD top default)).getD posf default) posf top
    (le_refl _) (by omega) hO2b hS2 hS3
  rw [hgfs] at wB wD
  refine ⟨?_, ?_, ?_, ?_⟩
  · intro i hi hdi hit h0i
    exact wA i (by omega) hdi hit h0i
  · intro i hi hnd
    have hiposf : i ≠ posf := fun hh => hnd (hh ▸ hO2b)
    rw [wC i (by omega) hnd, getD_set_ne h1 _ hiposf]
    exact hO4 i hi hnd
  · exact wD.trans hO8
  · intro X hX
    rcases wB with hB | hB
    · rw [hB]
      by_cases htpf : top = posf
      · have heq : (h1.set posf (h.getD top default)).getD top default =
            h.getD top default := by
          rw [htpf]
          exact getD_set_self h1 _ (by omega)
        rw [heq]
        exact hX top htop (Desc.refl top)
      · rw [getD_set_ne h1 _ htpf]
        obtain ⟨j, hdj, hj, hje⟩ := hO7 top htop (Desc.refl top)
        rw [hje]
        exact hX j hj hdj
    · rw [hB, hgf_posf]
      exact hX top htop (Desc.refl top)

theorem swim_heap0 [DecidableEq P] {ltp : P → P → Bool} (hswo : IsSWO ltp)
    (h : List (K × P)) (m : List (K × Nat)) (pos : Nat) (hpos : pos < h.length)
    (hS2 : ∀ i, i < h.length → i ≠ pos → 0 < i →
        ltp (h.getD i default).2 (h.getD (parentIdx i) default).2 = false)
    (hS3 : 0 < pos → ∀ c, c < h.length → parentIdx c = pos → 0 < c →
        ltp (h.getD c default).2 (h.getD (parentIdx pos) default).2 = false) :
    heapProp ltp (swim ltp h m pos 0).1 ∧ ((swim ltp h m pos 0).1.Perm h) := by
  unfold swim
  have hset : h.set pos (h.getD pos default) = h := set_getD_self h hpos
  obtain ⟨wA, _, _, wD⟩ := swimLoop_heap hswo pos h m (h.getD pos default) pos 0
    (le_refl _) hpos (Desc.zero pos)
    (by
      intro i hi hdi hit hip h0i
      rw [hset]
      exact hS2 i hi hip h0i)
    (by
      intro h0pos c hc hpc h0c
      rw [hset]
      exact hS3 h0pos c hc hpc h0c)
  rw [hset] at wD
  constructor
  · intro i hi h0i
    rw [swimLoop_length] at hi
    exact wA i hi (Desc.zero i) (by omega) h0i
  · exact wD

theorem subtree_bound {ltp : P → P → Bool} (hswo : IsSWO ltp)
    (h : List (K × P)) (pos : Nat) (X : P)
    (hB1 : ∀ i, i < h.length → 0 < i → i ≠ pos → parentIdx i ≠ pos →
        ltp (h.getD i default).2 (h.getD (parentIdx i) default).2 = false)
    (hB2 : ∀ c, c < h.length → parentIdx c = pos → 0 < c →
        ltp (h.getD c default).2 X = false) :
    ∀ i, i < h.length → Desc pos i → i ≠ pos → ltp (h.getD i default).2 X = false := by
  intro i
  induction i using Nat.strong_induction_on with
  | _ i ihs =>
      intro hi hdi hip
      have h0i : 0 < i := by
        have := hdi.le
        rcases Nat.eq_zero_or_pos i with h0 | h0
        · subst h0
          omega
        · exact h0
      rcases hdi.parent_cases with he | ⟨hlt, hdp⟩
      · exact absurd he hip
      · by_cases hpi : parentIdx i = pos
        · exact hB2 i hi hpi h0i
        · have hpar_lt : parentIdx i < i := parentIdx_lt h0i
          have hpar_len : parentIdx i < h.length := by omega
          have hpar_ne : parentIdx i ≠ pos := hpi
          have hIH := ihs (parentIdx i) hpar_lt hpar_len hdp hpar_ne
          exact hswo.negtrans _ _ _ (hB1 i hi h0i hip hpi) hIH

theorem bubble_heap [DecidableEq P] {ltp : P → P → Bool} (hswo : IsSWO ltp)
    (h : List (K × P)) (m : List (K × Nat)) (pos : Nat) (hpos : pos < h.length)
    (hB1 : ∀ i, i < h.length → 0 < i → i ≠ pos → parentIdx i ≠ pos →
        ltp (h.getD i default).2 (h.getD (parentIdx i) default).2 = false)
    (hB2 : 0 < pos → ∀ c, c < h.length → parentIdx c = pos → 0 < c →
        ltp (h.getD c default).2 (h.getD (parentIdx pos) default).2 = false) :
    heapProp ltp (bubble ltp h m pos).1 ∧ ((bubble ltp h m pos).1.Perm h) := by
  simp only [bubble]
  by_cases hg : (0 < pos && ltp (h.getD pos default).2 (h.getD ((pos - 1) / 2) default).2) = true
  · rw [if_pos hg]
    simp only [Bool.and_eq_true, decide_eq_true_eq] at hg
    obtain ⟨hg0, hglt⟩ := hg
    have hglt' : ltp (h.getD pos default).2 (h.getD (parentIdx pos) default).2 = true := hglt
    refine swim_heap0 hswo h m pos hpos ?_ (fun _ => hB2 hg0)
    intro i hi hip h0i
    by_cases hpi : parentIdx i = pos
    · rw [hpi]
      exact swo_shield hswo (hB2 hg0 i hi hpi h0i) hglt'
    · exact hB1 i hi h0i hip hpi
  · rw [if_neg hg]
    simp only [Bool.and_eq_true, decide_eq_true_eq, not_and] at hg
    have himp : 0 < pos →
        ltp (h.getD pos default).2 (h.getD (parentIdx pos) default).2 = false := by
      intro h0
      have := hg h0
      cases hx : ltp (h.getD pos default).2 (h.getD ((pos - 1) / 2) default).2
      · exact hx
      · exact absurd hx this
    by_cases hc : 2 * pos + 1 < h.length
    · rw [if_pos hc]
      set cpos := if (2 * pos + 1 + 1 < h.length &&
          !(ltp (h.getD (2 * pos + 1) default).2 (h.getD (2 * pos + 1 + 1) default).2)) = true
        then 2 * pos + 1 + 1 else 2 * pos + 1 with hcpos
      have hsel : (cpos = 2 * pos + 2 ∧ 2 * pos + 2 < h.length ∧
            ltp (h.getD (2 * pos + 1) default).2 (h.getD (2 * pos + 2) default).2 = false) ∨
          (cpos = 2 * pos + 1 ∧ (2 * pos + 2 < h.length →
            ltp (h.getD (2 * pos + 1) default).2 (h.getD (2 * pos + 2) default).2 = true)) := by
        rw [hcpos]
        by_cases hb : (2 * pos + 1 + 1 < h.length &&
            !(ltp (h.getD (2 * pos + 1) default).2 (h.getD (2 * pos + 1 + 1) default).2)) = true
        · rw [if_pos hb]
          simp only [Bool.and_eq_true, Bool.not_eq_true', decide_eq_true_eq] at hb
          exact Or.inl ⟨by omega, by omega, by
            have := hb.2
            simpa using this⟩
        · rw [if_neg hb]
          simp only [Bool.and_eq_true, Bool.not_eq_true', decide_eq_true_eq, not_and] at hb
          refine Or.inr ⟨rfl, fun h2 => ?_⟩
          have := hb (by omega)
          cases hx : ltp (h.getD (2 * pos + 1) default).2 (h.getD (2 * pos + 2) default).2
          · rw [show (2 * pos + 1 + 1) = 2 * pos + 2 from rfl] at this
            rw [hx] at this
            simp at this
          · rfl
      by_cases hlt2 : ltp (h.getD cpos default).2 (h.getD pos default).2 = true
      · rw [if_pos hlt2]
        obtain ⟨sA, sB, sC, sD⟩ := sink_heap hswo h m pos hpos
          (fun i hi _ hit hpip h0i => hB1 i hi h0i hit hpip)
        refine ⟨?_, sC⟩
        intro i hi h0i
        rw [sink_length] at hi
        by_cases hdi : Desc pos i
        · by_cases hip : i = pos
          · subst hip
            have h0pos : 0 < i := h0i
            have hpar_lt : parentIdx i < i := parentIdx_lt h0pos
            have hpar_nd : ¬ Desc i (parentIdx i) := by
              intro hd
              have := hd.le
              omega
            rw [sB (parentIdx i) (by omega) hpar_nd]
            refine sD (h.getD (parentIdx i) default).2 ?_
            intro j hj hdj
            by_cases hjp : j = i
            · subst hjp
              exact himp h0pos
            · exact subtree_bound hswo h i _ hB1 (hB2 h0pos) j hj hdj hjp
          · exact sA i hi hdi hip h0i
        · have hip : i ≠ pos := fun hh => hdi (hh ▸ Desc.refl pos)
          have hpar_nd : ¬ Desc pos (parentIdx i) := fun hd => hdi (Desc.of_parent hd)
          have hpar_ne : parentIdx i ≠ pos := fun hh => hpar_nd (hh ▸ Desc.refl pos)
          have hpar_len : parentIdx i < h.length := by
            have := parentIdx_lt h0i
            omega
          rw [sB i hi hdi, sB (parentIdx i) hpar_len hpar_nd]
          exact hB1 i hi h0i hip hpar_ne
      · rw [if_neg hlt2]
        have hlt2' : ltp (h.getD cpos default).2 (h.getD pos default).2 = false := by
          cases hx : ltp (h.getD cpos default).2 (h.getD pos default).2
          · rfl
          · exact absurd hx hlt2
        refine ⟨?_, List.Perm.refl h⟩
        intro i hi h0i
        have hi' : i < h.length := hi
        by_cases hpi : parentIdx i = pos
        · have hi_child : i = 2 * pos + 1 ∨ i = 2 * pos + 2 := (parentIdx_eq_iff h0i).1 hpi
          rw [hpi]
          rcases hsel with ⟨he, hb, hsl⟩ | ⟨he, hsl⟩
          · rcases hi_child with hil | hio
            · rw [hil]
              rw [he] at hlt2'
              exact hswo.negtrans _ _ _ hsl hlt2'
            · rw [hio]
              rw [he] at hlt2'
              exact hlt2'
          · rcases hi_child with hil | hio
            · rw [hil]
              rw [he] at hlt2'
              exact hlt2'
            · rw [hio]
              have hol : ltp (h.getD (2 * pos + 1) default).2
                  (h.getD (2 * pos + 2) default).2 = true := hsl (by omega)
              rw [he] at hlt2'
              cases hx : ltp (h.getD (2 * pos + 2) default).2 (h.getD pos default).2
              · rfl
              · have := hswo.lt_trans hol hx
                rw [hlt2'] at this
                simp at this
        · by_cases hip : i = pos
          · subst hip
            rw [show parentIdx i = (i - 1) / 2 from rfl] at himp ⊢
            exact himp h0i
          · exact hB1 i hi h0i hip hpi
    · rw [if_neg hc]
      refine ⟨?_, List.Perm.refl h⟩
      intro i hi h0i
      have hi' : i < h.length := hi
      by_cases hpi : parentIdx i = pos
      · exfalso
        have := (parentIdx_eq_iff h0i).1 hpi
        omega
      · by_cases hip : i = pos
        · subst hip
          exact himp h0i
        · exact hB1 i hi h0i hip hpi

/-! ## Bulk construction -/

theorem heapifyFrom_spec [DecidableEq P] {ltp : P → P → Bool} (hswo : IsSWO ltp) :
    ∀ (mm : Nat) (h : List (K × P)) (mpos : List (K × Nat)),
    2 * mm ≤ h.length →
    (∀ i, i < h.length → 0 < i → mm ≤ parentIdx i →
        ltp (h.getD i default).2 (h.getD (parentIdx i) default).2 = false) →
    heapProp ltp (heapifyFrom ltp mm h mpos).1 ∧
    ((heapifyFrom ltp mm h mpos).1.Perm h) ∧
    ((heapifyFrom ltp mm h mpos).1.length = h.length) ∧
    (coh h mpos → coh (heapifyFrom ltp mm h mpos).1 (heapifyFrom ltp mm h mpos).2) := by
  intro mm
  induction mm with
  | zero =>
      intro h mpos hmm hAfter
      exact ⟨fun i hi h0i => hAfter i hi h0i (Nat.zero_le _),
        List.Perm.refl h, rfl, fun hc => hc⟩
  | succ m' ih =>
      intro h mpos hmm hAfter
      simp only [heapifyFrom]
      rcases hs : sink ltp h mpos m' with ⟨h1, p1⟩
      simp only [hs]
      have htop : m' < h.length := by omega
      obtain ⟨sA, sB, sC, _⟩ := sink_heap hswo h mpos m' htop
        (by
          intro i hi hdi hit hpip h0i
          have hd_par : Desc m' (parentIdx i) := by
            rcases hdi.parent_cases with he | ⟨_, hd⟩
            · exact absurd he hit
            · exact hd
          have : m' + 1 ≤ parentIdx i := by
            have := hd_par.le
            omega
          exact hAfter i hi h0i this)
      rw [hs] at sA sB sC
      have hlen1 : h1.length = h.length := by
        have := sink_length ltp h mpos m'
        rw [hs] at this
        exact this
      have hAfter1 : ∀ i, i < h1.length → 0 < i → m' ≤ parentIdx i →
          ltp (h1.getD i default).2 (h1.getD (parentIdx i) default).2 = false := by
        intro i hi h0i hm
        rw [hlen1] at hi
        by_cases hdi : Desc m' i
        · by_cases hit : i = m'
          · exfalso
            subst hit
            have := parentIdx_lt h0i
            omega
          · exact sA i hi hdi hit h0i
        · have hit : i ≠ m' := fun hh => hdi (hh ▸ Desc.refl m')
          have hpar_nd : ¬ Desc m' (parentIdx i) := fun hd => hdi (Desc.of_parent hd)
          have hpar_ne : parentIdx i ≠ m' := fun hh => hpar_nd (hh ▸ Desc.refl m')
          have hpar_len : parentIdx i < h.length := by
            have := parentIdx_lt h0i
            omega
          rw [sB i hi hdi, sB (parentIdx i) hpar_len hpar_nd]
          exact hAfter i hi h0i (by omega)
      obtain ⟨iA, iB, iC, iD⟩ := ih h1 p1 (by omega) hAfter1
      refine ⟨iA, iB.trans sC, by rw [iC, hlen1], ?_⟩
      intro hc
      refine iD ?_
      have := coh_sink ltp hc htop
      rw [hs] at this
      exact this

theorem loadPositions_lookup_not_mem :
    ∀ (rest : List (K × P)) (acc : List (K × Nat)) (p : Nat) (k : K),
    k ∉ rest.map Prod.fst →
    dictGet (loadPositions acc p rest) k = dictGet acc k := by
  intro rest
  induction rest with
  | nil => intro acc p k _; rfl
  | cons hd tl ih =>
      obtain ⟨k0, v0⟩ := hd
      intro acc p k hk
      simp only [List.map_cons, List.mem_cons, not_or] at hk
      simp only [loadPositions]
      rw [ih _ _ k hk.2, dictGet_dictSet_ne acc p hk.1]

theorem loadPositions_lookup_mem :
    ∀ (rest : List (K × P)) (acc : List (K × Nat)) (p : Nat) (i : Nat),
    i < rest.length → (rest.map Prod.fst).Nodup →
    dictGet (loadPositions acc p rest) (rest.getD i default).1 = some (p + i) := by
  intro rest
  induction rest with
  | nil => intro acc p i hi; simp at hi
  | cons hd tl ih =>
      obtain ⟨k0, v0⟩ := hd
      intro acc p i hi hnd
      simp only [List.map_cons, List.nodup_cons] at hnd
      cases i with
      | zero =>
          simp only [loadPositions]
          have : (((k0, v0) :: tl).getD 0 default).1 = k0 := rfl
          rw [this, loadPositions_lookup_not_mem tl _ _ k0 hnd.1,
            dictGet_dictSet_self]
          simp
      | succ j =>
          simp only [loadPositions]
          have : (((k0, v0) :: tl).getD (j + 1) default) = tl.getD j default := rfl
          rw [this, ih _ _ j (by simpa using hi) hnd.2]
          congr 1
          omega

theorem loadPositions_keys_sub :
    ∀ (rest : List (K × P)) (acc : List (K × Nat)) (p : Nat) (k : K),
    k ∈ (loadPositions acc p rest).map Prod.fst →
    k ∈ acc.map Prod.fst ∨ k ∈ rest.map Prod.fst := by
  intro rest
  induction rest with
  | nil => intro acc p k hk; exact Or.inl hk
  | cons hd tl ih =>
      obtain ⟨k0, v0⟩ := hd
      intro acc p k hk
      simp only [loadPositions] at hk
      rcases ih _ _ k hk with hk2 | hk2
      · by_cases hk0 : k = k0
        · simp [hk0]
        · left
          by_cases hmem : k0 ∈ acc.map Prod.fst
          · rwa [keys_dictSet_mem acc p hmem] at hk2
          · rw [keys_dictSet_not_mem acc p hmem] at hk2
            simp only [List.mem_append, List.mem_singleton] at hk2
            rcases hk2 with hk2 | hk2
            · exact hk2
            · exact absurd hk2 hk0
      · simp [hk2]

theorem loadPositions_nodup :
    ∀ (rest : List (K × P)) (acc : List (K × Nat)) (p : Nat),
    (acc.map Prod.fst).Nodup → ((loadPositions acc p rest).map Prod.fst).Nodup := by
  intro rest
  induction rest with
  | nil => intro acc p h; exact h
  | cons hd tl ih =>
      obtain ⟨k0, v0⟩ := hd
      intro acc p h
      exact ih _ _ (nodup_dictSet acc k0 p h)

theorem loadPositions_coh (pairs : List (K × P))
    (hnd : (pairs.map Prod.fst).Nodup) :
    coh pairs (loadPositions [] 0 pairs) := by
  refine ⟨?_, ?_, loadPositions_nodup pairs [] 0 (by simp)⟩
  · intro i hi
    have := loadPositions_lookup_mem pairs [] 0 i hi hnd
    simpa using this
  · intro k i hg
    have hk : k ∈ (loadPositions [] 0 pairs).map Prod.fst := by
      rw [← dictGet_isSome_iff, hg]
      rfl
    rcases loadPositions_keys_sub pairs [] 0 k hk with hk2 | hk2
    · simp at hk2
    · rw [List.mem_map] at hk2
      obtain ⟨e, he, hek⟩ := hk2
      obtain ⟨j, hj, hje⟩ := (mem_iff_getD pairs e).1 he
      have hlm := loadPositions_lookup_mem pairs [] 0 j hj hnd
      rw [hje, hek, hg] at hlm
      have hij : i = j := by
        simp only [Option.some_inj] at hlm
        omega
      subst hij
      exact ⟨by omega, by rw [hje, hek]⟩

theorem pqInit_wf [DecidableEq P] {ltp : P → P → Bool} (hswo : IsSWO ltp)
    (pairs : List (K × P)) (hnd : (pairs.map Prod.fst).Nodup) :
    WF ltp (pqInit ltp pairs) ∧ ((pqInit ltp pairs).heap.Perm pairs) := by
  unfold pqInit
  rcases hh : heapifyFrom ltp (pairs.length / 2) pairs (loadPositions [] 0 pairs)
    with ⟨h, m⟩
  obtain ⟨iA, iB, iC, iD⟩ := heapifyFrom_spec hswo (pairs.length / 2) pairs
    (loadPositions [] 0 pairs) (by omega)
    (by
      intro i hi h0i hm
      exfalso
      unfold parentIdx at hm
      omega)
  rw [hh] at iA iB iC iD
  exact ⟨⟨iD (loadPositions_coh pairs hnd), iA⟩, iB⟩

/-! ## Auxiliary facts about `bubble` and `dictRemove` commutation -/

theorem bubble_length (ltp : P → P → Bool) (h : List (K × P)) (m : List (K × Nat))
    (pos : Nat) : (bubble ltp h m pos).1.length = h.length := by
  simp only [bubble]
  split
  · rw [swim_length]
  · split
    · split
      · split
        · rw [sink_length]
        · rfl
      · split
        · rw [sink_length]
        · rfl
    · rfl

theorem coh_bubble (ltp : P → P → Bool) {h : List (K × P)} {m : List (K × Nat)}
    (pos : Nat) (hc : coh h m) (hpos : pos < h.length) :
    coh (bubble ltp h m pos).1 (bubble ltp h m pos).2 := by
  simp only [bubble]
  split
  · exact coh_swim ltp 0 hc hpos
  · split
    · split
      · split
        · exact coh_sink ltp hc hpos
        · exact hc
      · split
        · exact coh_sink ltp hc hpos
        · exact hc
    · exact hc

theorem swimLoop_dictRemove (ltp : P → P → Bool) (fuel : Nat) (bad : K) :
    ∀ (h : List (K × P)) (m : List (K × Nat)) (e : K × P) (pos top : Nat),
    (∀ i, i < h.length → (h.getD i default).1 ≠ bad) → e.1 ≠ bad → pos < h.length →
    swimLoop ltp fuel h (dictRemove m bad) e pos top =
      ((swimLoop ltp fuel h m e pos top).1,
        dictRemove (swimLoop ltp fuel h m e pos top).2 bad) := by
  induction fuel with
  | zero =>
      intro h m e pos top hkeys hek hpos
      simp only [swimLoop]
      rw [dictRemove_dictSet_ne m pos hek]
  | succ fuel ih =>
      intro h m e pos top hkeys hek hpos
      simp only [swimLoop]
      by_cases htop : top < pos
      · simp only [if_pos htop]
        by_cases hlt : ltp e.2 (h.getD ((pos - 1) / 2) default).2 = true
        · simp only [if_pos hlt]
          have hpar : (pos - 1) / 2 < h.length := by omega
          rw [← dictRemove_dictSet_ne m pos (hkeys _ hpar)]
          refine ih _ _ e _ top ?_ hek (by rw [List.length_set]; omega)
          intro i hi
          rw [List.length_set] at hi
          by_cases hip : i = pos
          · subst hip
            rw [getD_set_self h _ hpos]
            exact hkeys _ hpar
          · rw [getD_set_ne h _ hip]
            exact hkeys i hi
        · simp only [if_neg hlt]
          rw [dictRemove_dictSet_ne m pos hek]
      · simp only [if_neg htop]
        rw [dictRemove_dictSet_ne m pos hek]

theorem sinkChain_dictRemove (ltp : P → P → Bool) (fuel : Nat) (bad : K) :
    ∀ (h : List (K × P)) (m : List (K × Nat)) (pos endpos : Nat),
    (∀ i, i < h.length → (h.getD i default).1 ≠ bad) → endpos = h.length →
    sinkChain ltp fuel h (dictRemove m bad) pos endpos =
      ((sinkChain ltp fuel h m pos endpos).1,
        dictRemove (sinkChain ltp fuel h m pos endpos).2.1 bad,
        (sinkChain ltp fuel h m pos endpos).2.2) := by
  induction fuel with
  | zero =>
      intro h m pos endpos hkeys hend
      simp only [sinkChain]
  | succ fuel ih =>
      intro h m pos endpos hkeys hend
      simp only [sinkChain]
      by_cases hchild : 2 * pos + 1 < endpos
      · simp only [if_pos hchild]
        set cpos := if (2 * pos + 1 + 1 < endpos &&
            !(ltp (h.getD (2 * pos + 1) default).2 (h.getD (2 * pos + 1 + 1) default).2)) = true
          then 2 * pos + 1 + 1 else 2 * pos + 1 with hcpos
        have hcpos_lt : cpos < h.length := by
          rw [hcpos]
          by_cases hb : (2 * pos + 1 + 1 < endpos &&
              !(ltp (h.getD (2 * pos + 1) default).2 (h.getD (2 * pos + 1 + 1) default).2)) = true
          · rw [if_pos hb]
            simp only [Bool.and_eq_true, decide_eq_true_eq] at hb
            omega
          · rw [if_neg hb]
            omega
        rw [← dictRemove_dictSet_ne m pos (hkeys _ hcpos_lt)]
        refine ih _ _ cpos endpos ?_ (by simpa using hend)
        intro i hi
        rw [List.length_set] at hi
        by_cases hip : i = pos
        · subst hip
          rw [getD_set_self h _ (by omega)]
          exact hkeys _ hcpos_lt
        · rw [getD_set_ne h _ hip]
          exact hkeys i hi
      · simp only [if_neg hchild]

theorem sinkChain_pos_lt (ltp : P → P → Bool) (fuel : Nat) :
    ∀ (h : List (K × P)) (m : List (K × Nat)) (pos endpos : Nat), pos < endpos →
    (sinkChain ltp fuel h m pos endpos).2.2 < endpos := by
  induction fuel with
  | zero => intro h m pos endpos hpos; exact hpos
  | succ fuel ih =>
      intro h m pos endpos hpos
      simp only [sinkChain]
      by_cases hchild : 2 * pos + 1 < endpos
      · rw [if_pos hchild]
        apply ih
        by_cases hb : (2 * pos + 1 + 1 < endpos &&
            !(ltp (h.getD (2 * pos + 1) default).2 (h.getD (2 * pos + 1 + 1) default).2)) = true
        · rw [if_pos hb]
          simp only [Bool.and_eq_true, decide_eq_true_eq] at hb
          omega
        · rw [if_neg hb]
          omega
      · rw [if_neg hchild]
        exact hpos

theorem sinkChain_keys (ltp : P → P → Bool) (fuel : Nat) (bad : K) :
    ∀ (h : List (K × P)) (m : List (K × Nat)) (pos endpos : Nat), endpos = h.length →
    (∀ i, i < h.length → (h.getD i default).1 ≠ bad) →
    ∀ i, i < (sinkChain ltp fuel h m pos endpos).1.length →
      ((sinkChain ltp fuel h m pos endpos).1.getD i default).1 ≠ bad := by
  induction fuel with
  | zero => intro h m pos endpos _ hkeys; exact hkeys
  | succ fuel ih =>
      intro h m pos endpos hend hkeys
      simp only [sinkChain]
      by_cases hchild : 2 * pos + 1 < endpos
      · rw [if_pos hchild]
        set cpos := if (2 * pos + 1 + 1 < endpos &&
            !(ltp (h.getD (2 * pos + 1) default).2 (h.getD (2 * pos + 1 + 1) default).2)) = true
          then 2 * pos + 1 + 1 else 2 * pos + 1 with hcpos
        have hcpos_lt : cpos < h.length := by
          rw [hcpos]
          by_cases hb : (2 * pos + 1 + 1 < endpos &&
              !(ltp (h.getD (2 * pos + 1) default).2 (h.getD (2 * pos + 1 + 1) default).2)) = true
          · rw [if_pos hb]
            simp only [Bool.and_eq_true, decide_eq_true_eq] at hb
            omega
          · rw [if_neg hb]
            omega
        refine ih _ _ cpos endpos (by simpa using hend) ?_
        intro i hi
        rw [List.length_set] at hi
        by_cases hip : i = pos
        · subst hip
          rw [getD_set_self h _ (by omega)]
          exact hkeys _ hcpos_lt
        · rw [getD_set_ne h _ hip]
          exact hkeys i hi
      · rw [if_neg hchild]
        exact hkeys

theorem sink_dictRemove (ltp : P → P → Bool) (bad : K)
    (h : List (K × P)) (m : List (K × Nat)) (top : Nat)
    (hkeys : ∀ i, i < h.length → (h.getD i default).1 ≠ bad) (htop : top < h.length) :
    sink ltp h (dictRemove m bad) top =
      ((sink ltp h m top).1, dictRemove (sink ltp h m top).2 bad) := by
  simp only [sink]
  rw [sinkChain_dictRemove ltp h.length bad h m top h.length hkeys rfl]
  rcases hsc : sinkChain ltp h.length h m top h.length with ⟨h1, m1, posf⟩
  simp only [hsc]
  have hlen1 : h1.length = h.length := by
    have := sinkChain_length ltp h.length h m top h.length
    rw [hsc] at this
    exact this
  have hposf : posf < h.length := by
    have := sinkChain_pos_lt ltp h.length h m top h.length htop
    rw [hsc] at this
    exact this
  have hkeys1 : ∀ i, i < h1.length → ((h1.getD i default)).1 ≠ bad := by
    have := sinkChain_keys ltp h.length bad h m top h.length rfl hkeys
    rw [hsc] at this
    exact this
  have hkeysg : ∀ i, i < (h1.set posf (h.getD top default)).length →
      (((h1.set posf (h.getD top default)).getD i default)).1 ≠ bad := by
    intro i hi
    rw [List.length_set] at hi
    by_cases hip : i = posf
    · subst hip
      rw [getD_set_self h1 _ (by omega)]
      exact hkeys top htop
    · rw [getD_set_ne h1 _ hip]
      exact hkeys1 i hi
  rw [← dictRemove_dictSet_ne m1 posf (hkeys top htop)]
  unfold swim
  have hglen : posf < (h1.set posf (h.getD top default)).length := by
    rw [List.length_set]
    omega
  rw [swimLoop_dictRemove ltp posf bad _ _ _ posf top hkeysg
    (by
      rw [getD_set_self h1 _ (by omega)]
      exact hkeys top htop)
    hglen]

/-! ## Operation-level invariant preservation -/

theorem coh_key_ne {h : List (K × P)} {m : List (K × Nat)} (hc : coh h m)
    {i j : Nat} (hi : i < h.length) (hj : j < h.length) (hij : i ≠ j) :
    (h.getD i default).1 ≠ (h.getD j default).1 := by
  intro he
  have h1 := hc.1 i hi
  have h2 := hc.1 j hj
  rw [he] at h1
  rw [h1] at h2
  simp only [Option.some_inj] at h2
  exact hij h2

theorem heapProp_dropLast {ltp : P → P → Bool} {h : List (K × P)}
    (hp : heapProp ltp h) : heapProp ltp h.dropLast := by
  intro i hi h0i
  rw [List.length_dropLast] at hi
  have hpar : parentIdx i < i := parentIdx_lt h0i
  rw [getD_dropLast h (by omega), getD_dropLast h (by omega)]
  exact hp i (by omega) h0i

theorem coh_remove_fill {h : List (K × P)} {m : List (K × Nat)} {k : K} {pos : Nat}
    (hc : coh h m) (hk : dictGet m k = some pos) (hpos : pos < h.length - 1) :
    coh ((h.dropLast).set pos (h.getD (h.length - 1) default))
      (dictSet (dictRemove m k) (h.getD (h.length - 1) default).1 pos) := by
  have hklen : pos < h.length := (hc.2.1 k pos hk).1
  have hkkey : (h.getD pos default).1 = k := (hc.2.1 k pos hk).2
  have hendkey_ne : (h.getD (h.length - 1) default).1 ≠ k := by
    rw [← hkkey]
    exact coh_key_ne hc (by omega) hklen (by omega)
  have hdl_len : ((h.dropLast).set pos (h.getD (h.length - 1) default)).length =
      h.length - 1 := by
    simp
  have hpos_dl : pos < h.dropLast.length := by
    rw [List.length_dropLast]
    omega
  refine ⟨?_, ?_, nodup_dictSet _ _ _ (nodup_dictRemove _ _ hc.2.2)⟩
  · intro i hi
    rw [hdl_len] at hi
    by_cases hip : i = pos
    · subst hip
      rw [getD_set_self _ _ hpos_dl, dictGet_dictSet_self]
    · rw [getD_set_ne _ _ hip, getD_dropLast h (by omega)]
      have hne_end : (h.getD i default).1 ≠ (h.getD (h.length - 1) default).1 :=
        coh_key_ne hc (by omega) (by omega) (by omega)
      have hne_k : (h.getD i default).1 ≠ k := by
        rw [← hkkey]
        exact coh_key_ne hc (by omega) hklen hip
      rw [dictGet_dictSet_ne _ _ hne_end, dictGet_dictRemove_ne _ hne_k]
      exact hc.1 i (by omega)
  · intro k' i hg
    by_cases hkk : k' = (h.getD (h.length - 1) default).1
    · subst hkk
      rw [dictGet_dictSet_self] at hg
      simp only [Option.some_inj] at hg
      subst hg
      rw [hdl_len, getD_set_self _ _ hpos_dl]
      exact ⟨hpos, rfl⟩
    · rw [dictGet_dictSet_ne _ _ hkk] at hg
      have hk'k : k' ≠ k := by
        intro hh
        subst hh
        rw [dictGet_dictRemove_self m k' hc.2.2] at hg
        cases hg
      rw [dictGet_dictRemove_ne _ hk'k] at hg
      obtain ⟨hi, hkey⟩ := hc.2.1 k' i hg
      have hip : i ≠ pos := by
        intro hh
        subst hh
        rw [hkkey] at hkey
        exact hk'k hkey.symm
      have hiend : i ≠ h.length - 1 := by
        intro hh
        subst hh
        exact hkk hkey.symm
      rw [hdl_len, getD_set_ne _ _ hip, getD_dropLast h (by omega)]
      exact ⟨by omega, hkey⟩

theorem setitem_insert_spec [DecidableEq P] {ltp : P → P → Bool} (hswo : IsSWO ltp)
    {q : PQ K P} (hwf : WF ltp q) {k : K} {p : P}
    (hk : dictGet q.position k = none) :
    WF ltp (setitem ltp q k p) ∧ ((setitem ltp q k p).heap.Perm ((k, p) :: q.heap)) := by
  simp only [setitem, hk]
  rcases hs : swim ltp (q.heap ++ [(k, p)]) (dictSet q.position k q.heap.length)
    q.heap.length 0 with ⟨hh, mm⟩
  simp only [hs]
  obtain ⟨⟨hfound, hsound, hnodup⟩, hheap⟩ := hwf
  have hknotin : k ∉ q.heap.map Prod.fst := fun hmem =>
    ((dictGet_eq_none_iff _ _).1 hk) ((coh_mem_iff ⟨hfound, hsound, hnodup⟩ k).2 hmem)
  have hlen_app : (q.heap ++ [(k, p)]).length = q.heap.length + 1 := by simp
  have hmid : coh (q.heap ++ [(k, p)]) (dictSet q.position k q.heap.length) := by
    refine ⟨?_, ?_, nodup_dictSet _ _ _ hnodup⟩
    · intro i hi
      rw [hlen_app] at hi
      by_cases hin : i = q.heap.length
      · subst hin
        rw [getD_append_end, dictGet_dictSet_self]
      · have hi' : i < q.heap.length := by omega
        rw [getD_append_left _ _ hi']
        have hne : (q.heap.getD i default).1 ≠ k := by
          intro he
          exact hknotin (he ▸ List.mem_map_of_mem Prod.fst (getD_mem q.heap hi'))
        rw [dictGet_dictSet_ne _ _ hne]
        exact hfound i hi'
    · intro k' i hg
      by_cases hkk : k' = k
      · subst hkk
        rw [dictGet_dictSet_self] at hg
        simp only [Option.some_inj] at hg
        subst hg
        rw [hlen_app, getD_append_end]
        exact ⟨by omega, rfl⟩
      · rw [dictGet_dictSet_ne _ _ hkk] at hg
        obtain ⟨hi, hkey⟩ := hsound k' i hg
        rw [hlen_app, getD_append_left _ _ hi]
        exact ⟨by omega, hkey⟩
  have hn_lt : q.heap.length < (q.heap ++ [(k, p)]).length := by
    rw [hlen_app]
    omega
  obtain ⟨wH, wP⟩ := swim_heap0 hswo (q.heap ++ [(k, p)])
    (dictSet q.position k q.heap.length) q.heap.length hn_lt
    (by
      intro i hi hin h0i
      rw [hlen_app] at hi
      have hi' : i < q.heap.length := by omega
      have hpar : parentIdx i < i := parentIdx_lt h0i
      rw [getD_append_left _ _ hi', getD_append_left _ _ (by omega)]
      exact hheap i hi' h0i)
    (by
      intro h0n c hc hpc h0c
      exfalso
      rw [hlen_app] at hc
      have := (parentIdx_eq_iff h0c).1 hpc
      omega)
  have hcoh := coh_swim ltp 0 hmid hn_lt
  rw [hs] at wH wP hcoh
  refine ⟨⟨hcoh, wH⟩, ?_⟩
  refine wP.trans ?_
  have : (q.heap ++ [(k, p)]) = q.heap ++ (k, p) :: [] := rfl
  rw [this]
  exact List.perm_middle.trans (by simp)

theorem setitem_update_spec [DecidableEq P] {ltp : P → P → Bool} (hswo : IsSWO ltp)
    {q : PQ K P} (hwf : WF ltp q) {k : K} {p : P} {pos : Nat}
    (hk : dictGet q.position k = some pos) :
    WF ltp (setitem ltp q k p) ∧
    ((setitem ltp q k p).heap.Perm
      (q.heap.set pos ((q.heap.getD pos default).1, p))) := by
  simp only [setitem, hk]
  rcases hb : bubble ltp (q.heap.set pos ((q.heap.getD pos default).1, p))
    q.position pos with ⟨hh, mm⟩
  simp only [hb]
  obtain ⟨⟨hfound, hsound, hnodup⟩, hheap⟩ := hwf
  have hpos_len : pos < q.heap.length := (hsound k pos hk).1
  have hkey : (q.heap.getD pos default).1 = k := (hsound k pos hk).2
  have hlen1 : (q.heap.set pos ((q.heap.getD pos default).1, p)).length =
      q.heap.length := by simp
  have hat : ∀ j, j ≠ pos →
      (q.heap.set pos ((q.heap.getD pos default).1, p)).getD j default =
      q.heap.getD j default := fun j hj => getD_set_ne _ _ hj
  have hat_pos : (q.heap.set pos ((q.heap.getD pos default).1, p)).getD pos default =
      ((q.heap.getD pos default).1, p) := getD_set_self _ _ hpos_len
  have hmid : coh (q.heap.set pos ((q.heap.getD pos default).1, p)) q.position := by
    refine ⟨?_, ?_, hnodup⟩
    · intro i hi
      rw [hlen1] at hi
      by_cases hip : i = pos
      · subst hip
        rw [hat_pos]
        have := hfound i hi
        exact this
      · rw [hat i hip]
        exact hfound i hi
    · intro k' i hg
      obtain ⟨hi, hkey'⟩ := hsound k' i hg
      rw [hlen1]
      by_cases hip : i = pos
      · subst hip
        rw [hat_pos]
        exact ⟨hi, hkey'⟩
      · rw [hat i hip]
        exact ⟨hi, hkey'⟩
  obtain ⟨bH, bP⟩ := bubble_heap hswo (q.heap.set pos ((q.heap.getD pos default).1, p))
    q.position pos (by omega)
    (by
      intro i hi h0i hip hpip
      rw [hlen1] at hi
      rw [hat i hip, hat (parentIdx i) hpip]
      exact hheap i hi h0i)
    (by
      intro h0pos c hc hpc h0c
      rw [hlen1] at hc
      have hc_ne : c ≠ pos := by
        have := parentIdx_lt h0c
        omega
      have hpar_ne : parentIdx pos ≠ pos := by
        have := parentIdx_lt h0pos
        omega
      rw [hat c hc_ne, hat (parentIdx pos) hpar_ne]
      have hedge_c := hheap c hc h0c
      rw [hpc] at hedge_c
      have hedge_pos := hheap pos hpos_len h0pos
      exact hswo.negtrans _ _ _ hedge_c hedge_pos)
  have hcoh := coh_bubble ltp pos hmid (by rw [hlen1]; omega)
  rw [hb] at bH bP hcoh
  exact ⟨⟨hcoh, bH⟩, bP⟩

theorem delitem_spec [DecidableEq P] {ltp : P → P → Bool} (hswo : IsSWO ltp)
    {q : PQ K P} (hwf : WF ltp q) {k : K} {pos : Nat}
    (hk : dictGet q.position k = some pos) :
    (delitem ltp q k).1 = .ok () ∧ WF ltp (delitem ltp q k).2 ∧
    (q.heap.Perm ((q.heap.getD pos default) :: (delitem ltp q k).2.heap)) := by
  obtain ⟨⟨hfound, hsound, hnodup⟩, hheap⟩ := hwf
  have hpos_len : pos < q.heap.length := (hsound k pos hk).1
  have hkey : (q.heap.getD pos default).1 = k := (hsound k pos hk).2
  simp only [delitem, hk]
  rw [if_pos hpos_len]
  by_cases hlast : pos = q.heap.length - 1
  · rw [if_pos hlast]
    refine ⟨by trivial, ⟨⟨?_, ?_, nodup_dictRemove _ _ hnodup⟩, heapProp_dropLast hheap⟩, ?_⟩
    · intro i hi
      rw [List.length_dropLast] at hi
      rw [getD_dropLast q.heap hi]
      have hne_k : (q.heap.getD i default).1 ≠ k := by
        rw [← hkey]
        exact coh_key_ne ⟨hfound, hsound, hnodup⟩ (by omega) hpos_len (by omega)
      rw [dictGet_dictRemove_ne _ hne_k]
      exact hfound i (by omega)
    · intro k' i hg
      have hk'k : k' ≠ k := by
        intro hh
        subst hh
        rw [dictGet_dictRemove_self _ _ hnodup] at hg
        cases hg
      rw [dictGet_dictRemove_ne _ hk'k] at hg
      obtain ⟨hi, hkey'⟩ := hsound k' i hg
      have hip : i ≠ pos := by
        intro hh
        subst hh
        rw [hkey] at hkey'
        exact hk'k hkey'.symm
      rw [List.length_dropLast, getD_dropLast q.heap (by omega)]
      exact ⟨by omega, hkey'⟩
    · have := dropLast_getLast_perm q.heap (by omega)
      rw [← hlast] at this
      exact this
  · rw [if_neg hlast]
    have hpos_lt : pos < q.heap.length - 1 := by omega
    rcases hbb : bubble ltp ((q.heap.dropLast).set pos
        (q.heap.getD (q.heap.length - 1) default))
      (dictSet (dictRemove q.position k) (q.heap.getD (q.heap.length - 1) default).1 pos)
      pos with ⟨hh, mm⟩
    simp only [hbb]
    have hmid : coh ((q.heap.dropLast).set pos (q.heap.getD (q.heap.length - 1) default))
        (dictSet (dictRemove q.position k)
          (q.heap.getD (q.heap.length - 1) default).1 pos) :=
      coh_remove_fill ⟨hfound, hsound, hnodup⟩ hk hpos_lt
    have hlen1 : ((q.heap.dropLast).set pos
        (q.heap.getD (q.heap.length - 1) default)).length = q.heap.length - 1 := by
      simp
    have hat : ∀ j, j ≠ pos → j < q.heap.length - 1 →
        ((q.heap.dropLast).set pos (q.heap.getD (q.heap.length - 1) default)).getD j
          default = q.heap.getD j default := by
      intro j hj hjl
      rw [getD_set_ne _ _ hj, getD_dropLast q.heap (by omega)]
    obtain ⟨bH, bP⟩ := bubble_heap hswo _ _ pos (by rw [hlen1]; omega)
      (by
        intro i hi h0i hip hpip
        rw [hlen1] at hi
        have hpar : parentIdx i < i := parentIdx_lt h0i
        rw [hat i hip hi, hat (parentIdx i) hpip (by omega)]
        exact hheap i (by omega) h0i)
      (by
        intro h0pos c hc hpc h0c
        rw [hlen1] at hc
        have hc_ne : c ≠ pos := by
          have := parentIdx_lt h0c
          omega
        have hpar_ne : parentIdx pos ≠ pos := by
          have := parentIdx_lt h0pos
          omega
        have hpar_lt : parentIdx pos < pos := parentIdx_lt h0pos
        rw [hat c hc_ne hc, hat (parentIdx pos) hpar_ne (by omega)]
        have hedge_c := hheap c (by omega) h0c
        rw [hpc] at hedge_c
        have hedge_pos := hheap pos hpos_len h0pos
        exact hswo.negtrans _ _ _ hedge_c hedge_pos)
    have hcoh := coh_bubble ltp pos hmid (by rw [hlen1]; omega)
    rw [hbb] at bH bP hcoh
    refine ⟨by trivial, ⟨hcoh, bH⟩, ?_⟩
    have hperm := dropLast_set_perm q.heap (show pos + 1 < q.heap.length by omega)
    exact hperm.trans (List.Perm.cons _ bP.symm)

theorem popKey_eq_delitem (ltp : P → P → Bool) (q : PQ K P) (k : K)
    (dflt : Option P) {pos : Nat} (hk : dictGet q.position k = some pos)
    (hpos : pos < q.heap.length) :
    popKey ltp q k dflt =
      (.ok (q.heap.getD pos default).2, (delitem ltp q k).2) := by
  simp only [popKey, delitem, hk]
  rw [if_pos hpos, if_pos hpos]
  by_cases hlast : pos = q.heap.length - 1
  · rw [if_pos hlast, if_pos hlast]
  · rw [if_neg hlast, if_neg hlast]

theorem popitem_spec [DecidableEq P] {ltp : P → P → Bool} (hswo : IsSWO ltp)
    {q : PQ K P} (hwf : WF ltp q) (hne : ¬ q.heap.length = 0) :
    (popitem ltp q).1 = .ok ((q.heap.getD 0 default).1, (q.heap.getD 0 default).2) ∧
    WF ltp (popitem ltp q).2 ∧
    (q.heap.Perm ((q.heap.getD 0 default) :: (popitem ltp q).2.heap)) ∧
    (popitem ltp q).2.heap.length + 1 = q.heap.length := by
  obtain ⟨⟨hfound, hsound, hnodup⟩, hheap⟩ := hwf
  simp only [popitem]
  rw [if_neg hne]
  by_cases h1 : q.heap.dropLast.length = 0
  · rw [if_pos h1]
    rw [List.length_dropLast] at h1
    have hlen1 : q.heap.length = 1 := by omega
    have hend0 : q.heap.length - 1 = 0 := by omega
    rw [hend0]
    refine ⟨rfl, ⟨⟨?_, ?_, nodup_dictRemove _ _ hnodup⟩, ?_⟩, ?_, ?_⟩
    · intro i hi
      rw [List.length_dropLast] at hi
      omega
    · intro k' i hg
      exfalso
      have hk'0 : k' ≠ (q.heap.getD 0 default).1 := by
        intro hh
        subst hh
        rw [dictGet_dictRemove_self _ _ hnodup] at hg
        cases hg
      rw [dictGet_dictRemove_ne _ hk'0] at hg
      obtain ⟨hi, hkey'⟩ := hsound k' i hg
      have : i = 0 := by omega
      subst this
      exact hk'0 hkey'.symm
    · intro i hi h0i
      rw [List.length_dropLast] at hi
      omega
    · have := dropLast_getLast_perm q.heap (by omega)
      rw [hend0] at this
      show q.heap.Perm (q.heap.getD 0 default :: q.heap.dropLast)
      exact this
    · simp only [List.length_dropLast]
      omega
  · rw [if_neg h1]
    rw [List.length_dropLast] at h1
    have hlen2 : 2 ≤ q.heap.length := by omega
    have hentry : q.heap.dropLast.getD 0 default = q.heap.getD 0 default :=
      getD_dropLast q.heap (by omega)
    rcases hs : sink ltp ((q.heap.dropLast).set 0 (q.heap.getD (q.heap.length - 1) default))
      (dictSet q.position (q.heap.getD (q.heap.length - 1) default).1 0) 0 with ⟨h2, m2⟩
    simp only [hs, hentry]
    have hlenh1 : ((q.heap.dropLast).set 0
        (q.heap.getD (q.heap.length - 1) default)).length = q.heap.length - 1 := by
      simp
    have hat : ∀ j, j ≠ 0 → j < q.heap.length - 1 →
        ((q.heap.dropLast).set 0 (q.heap.getD (q.heap.length - 1) default)).getD j
          default = q.heap.getD j default := by
      intro j hj hjl
      rw [getD_set_ne _ _ hj, getD_dropLast q.heap (by omega)]
    -- heap order
    obtain ⟨sA, _, sC, _⟩ := sink_heap hswo
      ((q.heap.dropLast).set 0 (q.heap.getD (q.heap.length - 1) default))
      (dictSet q.position (q.heap.getD (q.heap.length - 1) default).1 0) 0
      (by rw [hlenh1]; omega)
      (by
        intro i hi hdi hit hpip h0i
        rw [hlenh1] at hi
        have hpar : parentIdx i < i := parentIdx_lt h0i
        rw [hat i hit hi, hat (parentIdx i) hpip (by omega)]
        exact hheap i (by omega) h0i)
    rw [hs] at sA sC
    have hlen2' : h2.length = q.heap.length - 1 := by
      have := sink_length ltp ((q.heap.dropLast).set 0
        (q.heap.getD (q.heap.length - 1) default))
        (dictSet q.position (q.heap.getD (q.heap.length - 1) default).1 0) 0
      rw [hs] at this
      simp only [] at this
      rw [this, hlenh1]
    -- coherence via dictRemove commutation
    have hentrykey : dictGet q.position (q.heap.getD 0 default).1 = some 0 :=
      hfound 0 (by omega)
    have hendkey_ne : (q.heap.getD (q.heap.length - 1) default).1 ≠
        (q.heap.getD 0 default).1 :=
      coh_key_ne ⟨hfound, hsound, hnodup⟩ (by omega) (by omega) (by omega)
    have hkeys1 : ∀ i, i < ((q.heap.dropLast).set 0
        (q.heap.getD (q.heap.length - 1) default)).length →
        (((q.heap.dropLast).set 0 (q.heap.getD (q.heap.length - 1) default)).getD i
          default).1 ≠ (q.heap.getD 0 default).1 := by
      intro i hi
      rw [hlenh1] at hi
      by_cases hi0 : i = 0
      · subst hi0
        rw [getD_set_self _ _ (by rw [List.length_dropLast]; omega)]
        exact hendkey_ne
      · rw [hat i hi0 hi]
        exact coh_key_ne ⟨hfound, hsound, hnodup⟩ (by omega) (by omega) hi0
    have hcomm := sink_dictRemove ltp (q.heap.getD 0 default).1
      ((q.heap.dropLast).set 0 (q.heap.getD (q.heap.length - 1) default))
      (dictSet q.position (q.heap.getD (q.heap.length - 1) default).1 0) 0
      hkeys1 (by rw [hlenh1]; omega)
    rw [hs] at hcomm
    simp only [] at hcomm
    have hmclean : dictRemove (dictSet q.position
        (q.heap.getD (q.heap.length - 1) default).1 0) (q.heap.getD 0 default).1 =
        dictSet (dictRemove q.position (q.heap.getD 0 default).1)
          (q.heap.getD (q.heap.length - 1) default).1 0 :=
      dictRemove_dictSet_ne _ _ hendkey_ne
    have hmid : coh ((q.heap.dropLast).set 0 (q.heap.getD (q.heap.length - 1) default))
        (dictSet (dictRemove q.position (q.heap.getD 0 default).1)
          (q.heap.getD (q.heap.length - 1) default).1 0) :=
      coh_remove_fill ⟨hfound, hsound, hnodup⟩ hentrykey (by omega)
    rw [hmclean] at hcomm
    -- transport coherence of the clean mid-state through the dictRemove commutation
    have hcohfin2 : coh h2 (dictRemove m2 (q.heap.getD 0 default).1) := by
      have h0 : (0 : Nat) < ((q.heap.dropLast).set 0
          (q.heap.getD (q.heap.length - 1) default)).length := by
        rw [hlenh1]; omega
      have := coh_sink ltp hmid h0
      rw [hcomm] at this
      exact this
    refine ⟨by trivial, ⟨hcohfin2, ?_⟩, ?_, ?_⟩
    · intro i hi h0i
      rw [hlen2'] at hi
      exact sA i (by rw [hlenh1]; omega) (Desc.zero i) (by omega) h0i
    · have hperm := dropLast_set_perm q.heap (show 0 + 1 < q.heap.length by omega)
      exact hperm.trans (List.Perm.cons _ sC.symm)
    · rw [hlen2']
      omega

/-! ## Reachable states

The spec's invariants are claimed for every `PQDict` built by the public API
starting from a construction with distinct dictionary keys (the spec declares
duplicate keys at construction undefined behavior). -/

section Reach

variable {K P : Type} [DecidableEq K] [Inhabited K] [Inhabited P]

inductive Reachable (ltp : P → P → Bool) : PQ K P → Prop where
  | init (pairs : List (K × P)) (hnd : (pairs.map Prod.fst).Nodup) :
      Reachable ltp (pqInit ltp pairs)
  | set (q : PQ K P) (k : K) (p : P) : Reachable ltp q →
      Reachable ltp (setitem ltp q k p)
  | del (q : PQ K P) (k : K) : Reachable ltp q →
      Reachable ltp (delitem ltp q k).2
  | pop (q : PQ K P) (k : K) (dflt : Option P) : Reachable ltp q →
      Reachable ltp (popKey ltp q k dflt).2
  | popit (q : PQ K P) : Reachable ltp q →
      Reachable ltp (popitem ltp q).2
  | add (q : PQ K P) (k : K) (p : P) : Reachable ltp q →
      Reachable ltp (additem ltp q k p).2
  | upd (q : PQ K P) (k : K) (p : P) : Reachable ltp q →
      Reachable ltp (updateitem ltp q k p).2

theorem wf_setitem [DecidableEq P] {ltp : P → P → Bool} (hswo : IsSWO ltp)
    {q : PQ K P} (hwf : WF ltp q) (k : K) (p : P) :
    WF ltp (setitem ltp q k p) := by
  cases hk : dictGet q.position k with
  | none => exact (setitem_insert_spec hswo hwf hk).1
  | some pos => exact (setitem_update_spec hswo hwf hk).1

theorem wf_delitem [DecidableEq P] {ltp : P → P → Bool} (hswo : IsSWO ltp)
    {q : PQ K P} (hwf : WF ltp q) (k : K) :
    WF ltp (delitem ltp q k).2 := by
  cases hk : dictGet q.position k with
  | none => simp only [delitem, hk]; exact hwf
  | some pos => exact (delitem_spec hswo hwf hk).2.1

theorem wf_popKey [DecidableEq P] {ltp : P → P → Bool} (hswo : IsSWO ltp)
    {q : PQ K P} (hwf : WF ltp q) (k : K) (dflt : Option P) :
    WF ltp (popKey ltp q k dflt).2 := by
  cases hk : dictGet q.position k with
  | none =>
      cases dflt with
      | none => simp only [popKey, hk]; exact hwf
      | some d => simp only [popKey, hk]; exact hwf
  | some pos =>
      have hpos : pos < q.heap.length := (hwf.1.2.1 k pos hk).1
      rw [popKey_eq_delitem ltp q k dflt hk hpos]
      exact (delitem_spec hswo hwf hk).2.1

theorem wf_popitem [DecidableEq P] {ltp : P → P → Bool} (hswo : IsSWO ltp)
    {q : PQ K P} (hwf : WF ltp q) :
    WF ltp (popitem ltp q).2 := by
  by_cases hne : q.heap.length = 0
  · simp only [popitem, if_pos hne]; exact hwf
  · exact (popitem_spec hswo hwf hne).2.1

theorem wf_of_reachable [DecidableEq P] {ltp : P → P → Bool} (hswo : IsSWO ltp)
    {q : PQ K P} (hr : Reachable ltp q) : WF ltp q := by
  induction hr with
  | init pairs hnd => exact (pqInit_wf hswo pairs hnd).1
  | set q k p _ ih => exact wf_setitem hswo ih k p
  | del q k _ ih => exact wf_delitem hswo ih k
  | pop q k dflt _ ih => exact wf_popKey hswo ih k dflt
  | popit q _ ih => exact wf_popitem hswo ih
  | add q k p _ ih =>
      cases hk : dictGet q.position k with
      | some pos => simp only [additem, hk]; exact ih
      | none => simp only [additem, hk]; exact wf_setitem hswo ih k p
  | upd q k p _ ih =>
      cases hk : dictGet q.position k with
      | none => simp only [updateitem, hk]; exact ih
      | some pos => simp only [updateitem, hk]; exact wf_setitem hswo ih k p

end Reach

/-! ## Root dominance and sorted extraction -/

section Drain

variable {K P : Type} [DecidableEq K] [Inhabited K] [Inhabited P]

theorem heapProp_root_min {ltp : P → P → Bool} (hswo : IsSWO ltp)
    {h : List (K × P)} (hh : heapProp ltp h) :
    ∀ i, i < h.length → ltp (h.getD i default).2 (h.getD 0 default).2 = false := by
  intro i hi
  by_cases hi0 : i = 0
  · subst hi0
    exact hswo.irrefl _
  · refine subtree_bound hswo h 0 (h.getD 0 default).2 ?_ ?_ i hi (Desc.zero i) hi0
    · intro j hj h0j hjp hpj
      exact hh j hj h0j
    · intro c hc hpc h0c
      have := hh c hc h0c
      rw [hpc] at this
      exact this

theorem drainFuel_spec [DecidableEq P] {ltp : P → P → Bool} (hswo : IsSWO ltp) :
    ∀ fuel (q : PQ K P), WF ltp q → q.heap.length ≤ fuel →
      (drainFuel ltp fuel q).Perm q.heap ∧
      List.Pairwise (fun a b => ltp b.2 a.2 = false) (drainFuel ltp fuel q) := by
  intro fuel
  induction fuel with
  | zero =>
      intro q hwf hle
      have : q.heap = [] := List.length_eq_zero.1 (by omega)
      simp [drainFuel, this]
  | succ fuel ih =>
      intro q hwf hle
      by_cases hne : q.heap.length = 0
      · have hnil : q.heap = [] := List.length_eq_zero.1 hne
        simp [drainFuel, popitem, hne, hnil]
      · obtain ⟨hok, hwf', hperm, hlen⟩ := popitem_spec hswo hwf hne
        rcases hp : popitem ltp q with ⟨r, q'⟩
        rw [hp] at hok hwf' hperm hlen
        simp only [] at hok hwf' hperm hlen
        subst hok
        simp only [drainFuel, hp]
        have hle' : q'.heap.length ≤ fuel := by omega
        obtain ⟨ihP, ihS⟩ := ih q' hwf' hle'
        constructor
        · have : ((q.heap.getD 0 default).1, (q.heap.getD 0 default).2) =
              q.heap.getD 0 default := rfl
          rw [this]
          exact (List.Perm.cons _ ihP).trans hperm.symm
        · refine List.Pairwise.cons ?_ ihS
          intro b hb
          have hb' : b ∈ q'.heap := ihP.mem_iff.1 hb
          have hbq : b ∈ q.heap := hperm.mem_iff.2 (List.mem_cons_of_mem _ hb')
          obtain ⟨i, hi, he⟩ := (mem_iff_getD q.heap b).1 hbq
          have := heapProp_root_min hswo hwf.2 i hi
          rw [he] at this
          exact this

theorem drain_spec [DecidableEq P] {ltp : P → P → Bool} (hswo : IsSWO ltp)
    {q : PQ K P} (hwf : WF ltp q) :
    (drain ltp q).Perm q.heap ∧
    List.Pairwise (fun a b => ltp b.2 a.2 = false) (drain ltp q) :=
  drainFuel_spec hswo q.heap.length q hwf le_rfl

end Drain

/-! ## Auxiliary lemmas for the claim theorems -/

section ClaimAux

variable {K P : Type} [DecidableEq K] [Inhabited K] [Inhabited P]

theorem dictGet_mem {m : List (K × Nat)} {k : K} {v : Nat}
    (h : dictGet m k = some v) : (k, v) ∈ m := by
  induction m with
  | nil => cases h
  | cons kv rest ih =>
      rcases kv with ⟨k0, v0⟩
      by_cases h0 : k0 = k
      · subst h0
        simp only [dictGet, if_pos rfl] at h
        cases h
        exact List.mem_cons_self _ _
      · simp only [dictGet, if_neg h0] at h
        exact List.mem_cons_of_mem _ (ih h)

theorem getD_append_right {α : Type} [Inhabited α] (l1 l2 : List α) {i : Nat}
    (h : l1.length ≤ i) :
    (l1 ++ l2).getD i default = l2.getD (i - l1.length) default := by
  rw [List.getD_eq_getElem?_getD, List.getElem?_append, if_neg (by omega),
    ← List.getD_eq_getElem?_getD]

theorem getD_map {α β : Type} [Inhabited α] [Inhabited β] (f : α → β)
    (l : List α) {i : Nat} (h : i < l.length) :
    (l.map f).getD i default = f (l.getD i default) := by
  rw [List.getD_eq_getElem?_getD, List.getElem?_eq_getElem (by simpa using h),
    List.getElem_map, List.getD_eq_getElem?_getD, List.getElem?_eq_getElem h]
  rfl

theorem getD_range {n i : Nat} (h : i < n) :
    (List.range n).getD i default = i := by
  rw [List.getD_eq_getElem?_getD, List.getElem?_eq_getElem (by simpa using h),
    List.getElem_range]
  rfl

end ClaimAux

section StoreAux

variable {K : Type} [DecidableEq K] [Inhabited K]

theorem copy_heapIds_getD (s : List (Cell K)) (q : PQRef K) {pos : Nat}
    (h : pos < q.heapIds.length) :
    (copyS s q).2.heapIds.getD pos 0 = s.length + pos := by
  show (((List.range q.heapIds.length).map
      (fun i => s.length + i)).getD pos 0 = s.length + pos)
  have h1 : ((List.range q.heapIds.length).map
      (fun i => s.length + i)).getD pos 0 =
      ((List.range q.heapIds.length).map
        (fun i => s.length + i)).getD pos default := rfl
  rw [h1, getD_map _ _ (by simpa using h)]
  rw [getD_range h]

theorem setitemS_store (s : List (Cell K)) (q : PQRef K) (dkey : K)
    (pkey : Int) :
    (dictGet q.position dkey = none ∧
      (setitemS s q dkey pkey).1 =
        s ++ [⟨dkey, pkey, q.createKind⟩]) ∨
    (∃ pos, dictGet q.position dkey = some pos ∧
      (setitemS s q dkey pkey).1 =
        s.set (q.heapIds.getD pos 0)
          ⟨(s.getD (q.heapIds.getD pos 0) default).dkey, pkey,
           (s.getD (q.heapIds.getD pos 0) default).kind⟩) := by
  cases hk : dictGet q.position dkey with
  | none =>
      left
      refine ⟨rfl, ?_⟩
      simp only [setitemS, hk]
  | some pos =>
      right
      refine ⟨pos, rfl, ?_⟩
      simp only [setitemS, hk]

theorem refValid_ids {s : List (Cell K)} {q : PQRef K}
    (hv : refValid s q = true) :
    (∀ id ∈ q.heapIds, id < s.length) ∧
    (∀ k pos, dictGet q.position k = some pos → pos < q.heapIds.length) := by
  simp only [refValid, Bool.and_eq_true, List.all_eq_true, decide_eq_true_eq] at hv
  exact ⟨hv.1, fun k pos h => hv.2 _ (dictGet_mem h)⟩

end StoreAux

section ClaimAux2

variable {K P : Type} [DecidableEq K] [Inhabited K] [Inhabited P]

theorem bubble_noop {ltp : P → P → Bool} {h : List (K × P)}
    (hh : heapProp ltp h) (m : List (K × Nat)) {pos : Nat}
    (hpos : pos < h.length) :
    bubble ltp h m pos = (h, m) := by
  simp only [bubble]
  have hg1 : (decide (0 < pos) &&
      ltp (h.getD pos default).2 (h.getD ((pos - 1) / 2) default).2) = false := by
    by_cases h0 : 0 < pos
    · have he := hh pos hpos h0
      have hp : (pos - 1) / 2 = parentIdx pos := rfl
      rw [hp, he, Bool.and_false]
    · have hd : decide (0 < pos) = false := by simp [h0]
      rw [hd, Bool.false_and]
  rw [hg1]
  simp only [Bool.false_eq_true, if_false]
  by_cases hc1 : 2 * pos + 1 < h.length
  · rw [if_pos hc1]
    have hone := hh (2 * pos + 1) hc1 (by omega)
    rw [parentIdx_child1] at hone
    rcases hb : (decide (2 * pos + 1 + 1 < h.length) &&
        !(ltp (h.getD (2 * pos + 1) default).2
          (h.getD (2 * pos + 1 + 1) default).2)) with _ | _
    · simp only [Bool.false_eq_true, if_false]
      rw [hone]
      simp only [Bool.false_eq_true, if_false]
    · have hc2 : 2 * pos + 1 + 1 < h.length := by
        have hb2 := hb
        simp only [Bool.and_eq_true, decide_eq_true_eq] at hb2
        exact hb2.1
      have htwo := hh (2 * pos + 1 + 1) hc2 (by omega)
      have hp2 : parentIdx (2 * pos + 1 + 1) = pos := by
        have h22 : 2 * pos + 1 + 1 = 2 * pos + 2 := by omega
        rw [h22, parentIdx_child2]
      rw [hp2] at htwo
      simp only [eq_self_iff_true, if_true]
      rw [htwo]
      simp only [Bool.false_eq_true, if_false]
  · rw [if_neg hc1]

theorem setitem_noop {ltp : P → P → Bool} {q : PQ K P}
    (hh : heapProp ltp q.heap) {k : K} {pos : Nat}
    (hk : dictGet q.position k = some pos) (hpos : pos < q.heap.length) :
    setitem ltp q k (q.heap.getD pos default).2 = q := by
  simp only [setitem, hk]
  have hcur : ((q.heap.getD pos default).1, (q.heap.getD pos default).2) =
      q.heap.getD pos default := rfl
  have hbn : bubble ltp q.heap q.position pos = (q.heap, q.position) :=
    bubble_noop hh q.position hpos
  rw [hcur, set_getD_self _ hpos, hbn]

theorem popitem_iter_len [DecidableEq P] {ltp : P → P → Bool}
    (hswo : IsSWO ltp) :
    ∀ n (q : PQ K P), WF ltp q → q.heap.length = n →
      ((fun q => (popitem ltp q).2)^[n] q).heap = [] := by
  intro n
  induction n with
  | zero =>
      intro q hwf hlen
      simpa using List.length_eq_zero.1 hlen
  | succ n ih =>
      intro q hwf hlen
      rw [Function.iterate_succ_apply]
      exact ih _ (wf_popitem hswo hwf)
        (by have := (popitem_spec hswo hwf (by omega)).2.2.2; omega)

end ClaimAux2

/-! ## Claim theorems -/

/-- C1: Heap property invariant — in every state reachable by the public
operations (construction with distinct keys, set/add/update, delete, pop,
pop-top) under a strict-weak ordering strategy, no non-root entry is better
than its parent entry: `better(heap[i].pkey, heap[parent(i)].pkey)` is false
for every non-root index `i`. -/
theorem c1_heap_invariant {K P : Type} [DecidableEq K] [Inhabited K]
    [Inhabited P] [DecidableEq P] {ltp : P → P → Bool} (hswo : IsSWO ltp)
    {q : PQ K P} (hr : Reachable ltp q) :
    ∀ i, i < q.heap.length → 0 < i →
      ltp (q.heap.getD i default).2 (q.heap.getD (parentIdx i) default).2
        = false :=
  fun i hi h0i => (wf_of_reachable hswo hr).2 i hi h0i

theorem c1_heap_invariant_witness :
    IsSWO intLt ∧
    Reachable intLt (pqInit intLt [("a", (5:Int)), ("b", 3), ("c", 8), ("d", 1)]) ∧
    (∀ i, i < (pqInit intLt [("a", (5:Int)), ("b", 3), ("c", 8), ("d", 1)]).heap.length →
      0 < i →
      intLt ((pqInit intLt [("a", (5:Int)), ("b", 3), ("c", 8), ("d", 1)]).heap.getD i
          default).2
        ((pqInit intLt [("a", (5:Int)), ("b", 3), ("c", 8), ("d", 1)]).heap.getD
          (parentIdx i) default).2 = false) :=
  ⟨intLt_swo, Reachable.init _ (by decide),
   c1_heap_invariant intLt_swo (Reachable.init _ (by decide))⟩

/-- C2 counterexample: constructing from a pair sequence with a duplicate key
(`[("a", 1), ("a", 2)]`) leaves both entries in the heap array but only one
position binding, so `len(heap) = 2 ≠ 1 = len(position)`, and heap slot 1
holds key `"a"` while `position["a"] = 0` — the claimed bijection and size
coherence fail for duplicate-key construction. -/
theorem c2_counterexample :
    (pqInit intLt [("a", (1:Int)), ("a", 2)]).heap.length = 2 ∧
    (pqInit intLt [("a", (1:Int)), ("a", 2)]).position.length = 1 ∧
    ((pqInit intLt [("a", (1:Int)), ("a", 2)]).heap.getD 1 default).1 = "a" ∧
    dictGet (pqInit intLt [("a", (1:Int)), ("a", 2)]).position "a" = some 0 := by
  decide

/-- C2 (amended): for states reachable from a construction whose keys are
distinct (duplicate keys are undefined behavior per the spec), the position
index and heap agree on every key's slot (`position[k] = i` iff
`heap[i].dkey = k` for in-range `i`), every indexed slot is in range, distinct
slots hold distinct keys, and `len(position) = len(heap)`. -/
theorem c2_bijection_size {K P : Type} [DecidableEq K] [Inhabited K]
    [Inhabited P] [DecidableEq P] {ltp : P → P → Bool} (hswo : IsSWO ltp)
    {q : PQ K P} (hr : Reachable ltp q) :
    (∀ k i, i < q.heap.length →
      (dictGet q.position k = some i ↔ (q.heap.getD i default).1 = k)) ∧
    (∀ k i, dictGet q.position k = some i → i < q.heap.length) ∧
    (∀ i j, i < q.heap.length → j < q.heap.length →
      (q.heap.getD i default).1 = (q.heap.getD j default).1 → i = j) ∧
    q.position.length = q.heap.length := by
  obtain ⟨⟨hfound, hsound, hnodup⟩, _⟩ := wf_of_reachable hswo hr
  refine ⟨?_, fun k i h => (hsound k i h).1, ?_, coh_length_eq ⟨hfound, hsound, hnodup⟩⟩
  · intro k i hi
    constructor
    · intro h
      exact (hsound k i h).2
    · intro h
      have := hfound i hi
      rw [h] at this
      exact this
  · intro i j hi hj hij
    have h1 := hfound i hi
    have h2 := hfound j hj
    rw [hij] at h1
    rw [h1] at h2
    cases h2
    rfl

theorem c2_bijection_size_witness :
    IsSWO intLt ∧
    Reachable intLt (pqInit intLt [("a", (5:Int)), ("b", 3)]) ∧
    ((∀ k i, i < (pqInit intLt [("a", (5:Int)), ("b", 3)]).heap.length →
      (dictGet (pqInit intLt [("a", (5:Int)), ("b", 3)]).position k = some i ↔
        ((pqInit intLt [("a", (5:Int)), ("b", 3)]).heap.getD i default).1 = k)) ∧
    (∀ k i, dictGet (pqInit intLt [("a", (5:Int)), ("b", 3)]).position k = some i →
      i < (pqInit intLt [("a", (5:Int)), ("b", 3)]).heap.length) ∧
    (∀ i j, i < (pqInit intLt [("a", (5:Int)), ("b", 3)]).heap.length →
      j < (pqInit intLt [("a", (5:Int)), ("b", 3)]).heap.length →
      ((pqInit intLt [("a", (5:Int)), ("b", 3)]).heap.getD i default).1 =
        ((pqInit intLt [("a", (5:Int)), ("b", 3)]).heap.getD j default).1 → i = j) ∧
    (pqInit intLt [("a", (5:Int)), ("b", 3)]).position.length =
      (pqInit intLt [("a", (5:Int)), ("b", 3)]).heap.length) :=
  ⟨intLt_swo, Reachable.init _ (by decide),
   c2_bijection_size intLt_swo (Reachable.init _ (by decide))⟩

/-- C3: Sorted extraction — draining a reachable ascending queue by repeated
`popitem` yields all entries (a permutation of the heap) in non-decreasing
priority order and `n` pop-tops leave the heap empty; dually a descending
queue drains in non-increasing order; concretely the queue built from
`{a: 5, b: 3, c: 8, d: 1}` pops exactly `(d,1), (b,3), (a,5), (c,8)`. -/
theorem c3_sorted_extraction {K : Type} [DecidableEq K] [Inhabited K]
    {qa qd : PQ K Int} (ha : Reachable intLt qa) (hd : Reachable intGt qd) :
    ((drain intLt qa).Perm qa.heap ∧
     List.Pairwise (fun a b => a.2 ≤ b.2) (drain intLt qa) ∧
     ((fun q => (popitem intLt q).2)^[qa.heap.length] qa).heap = []) ∧
    ((drain intGt qd).Perm qd.heap ∧
     List.Pairwise (fun a b => b.2 ≤ a.2) (drain intGt qd) ∧
     ((fun q => (popitem intGt q).2)^[qd.heap.length] qd).heap = []) ∧
    drain intLt (pqInit intLt [("a", (5:Int)), ("b", 3), ("c", 8), ("d", 1)])
      = [("d", (1:Int)), ("b", 3), ("a", 5), ("c", 8)] := by
  have hwfa := wf_of_reachable intLt_swo ha
  have hwfd := wf_of_reachable intGt_swo hd
  obtain ⟨hpa, hsa⟩ := drain_spec intLt_swo hwfa
  obtain ⟨hpd, hsd⟩ := drain_spec intGt_swo hwfd
  refine ⟨⟨hpa, ?_, popitem_iter_len intLt_swo qa.heap.length qa hwfa rfl⟩,
    ⟨hpd, ?_, popitem_iter_len intGt_swo qd.heap.length qd hwfd rfl⟩, by decide⟩
  · refine hsa.imp ?_
    intro a b h
    simp only [intLt, decide_eq_false_iff_not, Int.not_lt] at h
    exact h
  · refine hsd.imp ?_
    intro a b h
    simp only [intGt, decide_eq_false_iff_not, Int.not_lt] at h
    exact h

theorem c3_sorted_extraction_witness :
    Reachable intLt (pqInit intLt [("a", (5:Int)), ("b", 3), ("c", 8), ("d", 1)]) ∧
    Reachable intGt (pqInit intGt [("a", (5:Int)), ("b", 3)]) ∧
    (((drain intLt (pqInit intLt [("a", (5:Int)), ("b", 3), ("c", 8), ("d", 1)])).Perm
        (pqInit intLt [("a", (5:Int)), ("b", 3), ("c", 8), ("d", 1)]).heap ∧
      List.Pairwise (fun a b => a.2 ≤ b.2)
        (drain intLt (pqInit intLt [("a", (5:Int)), ("b", 3), ("c", 8), ("d", 1)])) ∧
      ((fun q => (popitem intLt q).2)^[(pqInit intLt
          [("a", (5:Int)), ("b", 3), ("c", 8), ("d", 1)]).heap.length]
        (pqInit intLt [("a", (5:Int)), ("b", 3), ("c", 8), ("d", 1)])).heap = []) ∧
     ((drain intGt (pqInit intGt [("a", (5:Int)), ("b", 3)])).Perm
        (pqInit intGt [("a", (5:Int)), ("b", 3)]).heap ∧
      List.Pairwise (fun a b => b.2 ≤ a.2)
        (drain intGt (pqInit intGt [("a", (5:Int)), ("b", 3)])) ∧
      ((fun q => (popitem intGt q).2)^[(pqInit intGt
          [("a", (5:Int)), ("b", 3)]).heap.length]
        (pqInit intGt [("a", (5:Int)), ("b", 3)])).heap = []) ∧
     drain intLt (pqInit intLt [("a", (5:Int)), ("b", 3), ("c", 8), ("d", 1)])
       = [("d", (1:Int)), ("b", 3), ("a", 5), ("c", 8)]) :=
  ⟨Reachable.init _ (by decide), Reachable.init _ (by decide),
   c3_sorted_extraction (Reachable.init _ (by decide)) (Reachable.init _ (by decide))⟩

/-- C4: the `pushpopitem` method body reads the undefined names
`self_position` and `key`, so every call raises `NameError` before reading or
writing any state and never performs the claimed insert-and-pop; the claimed
behavior is unimplementable by this code. -/
theorem c4_pushpopitem_always_raises {K P : Type} [DecidableEq K]
    [Inhabited K] [Inhabited P] (q : PQ K P) (dkey : K) (pkey : P) :
    pushpopitem q dkey pkey = (Except.error PyErr.nameError, q) := rfl

/-- C5: Error taxonomy with atomicity — under the data-structure invariants,
lookup, update and delete (`__getitem__`, `updateitem`, `__delitem__`,
`pop` without default) fail exactly when the key is absent (NotFound, raised
as `KeyError`); pure insertion (`additem`) fails exactly when the key is
present (AlreadyExists, raised as `KeyError`); extraction (`popitem`) and
`peek` fail exactly on the empty structure (Empty, raised as `KeyError`); and
every failing operation returns the state unchanged. -/
theorem c5_error_taxonomy {K P : Type} [DecidableEq K] [Inhabited K]
    [Inhabited P] {ltp : P → P → Bool} {q : PQ K P} (hwf : WF ltp q)
    (k : K) (p : P) :
    (getitem q k = Except.error PyErr.keyError ↔ dictGet q.position k = none) ∧
    (dictGet q.position k = none →
      updateitem ltp q k p = (Except.error PyErr.keyError, q)) ∧
    (dictGet q.position k ≠ none → (updateitem ltp q k p).1 = Except.ok ()) ∧
    (dictGet q.position k = none →
      delitem ltp q k = (Except.error PyErr.keyError, q)) ∧
    (dictGet q.position k ≠ none → (delitem ltp q k).1 = Except.ok ()) ∧
    (dictGet q.position k = none →
      popKey ltp q k none = (Except.error PyErr.keyError, q)) ∧
    (dictGet q.position k ≠ none → ∃ v, (popKey ltp q k none).1 = Except.ok v) ∧
    (dictGet q.position k ≠ none →
      additem ltp q k p = (Except.error PyErr.keyError, q)) ∧
    (dictGet q.position k = none → (additem ltp q k p).1 = Except.ok ()) ∧
    (q.heap = [] → popitem ltp q = (Except.error PyErr.keyError, q)) ∧
    (q.heap ≠ [] → ∃ e, (popitem ltp q).1 = Except.ok e) ∧
    (peek q = Except.error PyErr.keyError ↔ q.heap = []) := by
  obtain ⟨⟨hfound, hsound, hnodup⟩, _⟩ := hwf
  refine ⟨?_, ?_, ?_, ?_, ?_, ?_, ?_, ?_, ?_, ?_, ?_, ?_⟩
  · constructor
    · intro h
      cases hk : dictGet q.position k with
      | none => rfl
      | some pos =>
          exfalso
          have hpos := (hsound k pos hk).1
          simp only [getitem, hk, if_pos hpos] at h
          cases h
    · intro h
      simp only [getitem, h]
  · intro h
    simp only [updateitem, h]
  · intro h
    cases hk : dictGet q.position k with
    | none => exact absurd hk h
    | some pos => simp only [updateitem, hk]
  · intro h
    simp only [delitem, h]
  · intro h
    cases hk : dictGet q.position k with
    | none => exact absurd hk h
    | some pos =>
        have hpos := (hsound k pos hk).1
        simp only [delitem, hk, if_pos hpos]
        by_cases hlast : pos = q.heap.length - 1
        · rw [if_pos hlast]
        · rw [if_neg hlast]
  · intro h
    simp only [popKey, h]
  · intro h
    cases hk : dictGet q.position k with
    | none => exact absurd hk h
    | some pos =>
        have hpos := (hsound k pos hk).1
        refine ⟨(q.heap.getD pos default).2, ?_⟩
        rw [popKey_eq_delitem ltp q k none hk hpos]
  · intro h
    cases hk : dictGet q.position k with
    | none => exact absurd hk h
    | some pos => simp only [additem, hk]
  · intro h
    simp only [additem, h]
  · intro h
    have hlen : q.heap.length = 0 := by simp [h]
    simp only [popitem, if_pos hlen]
  · intro h
    have hlen : ¬ q.heap.length = 0 := by
      intro hc
      exact h (List.length_eq_zero.1 hc)
    simp only [popitem, if_neg hlen]
    by_cases h1 : q.heap.dropLast.length = 0
    · rw [if_pos h1]
      exact ⟨_, rfl⟩
    · rw [if_neg h1]
      rcases hs : sink ltp ((q.heap.dropLast).set 0
          (q.heap.getD (q.heap.length - 1) default))
        (dictSet q.position (q.heap.getD (q.heap.length - 1) default).1 0) 0
        with ⟨h2, m2⟩
      simp only [hs]
      exact ⟨_, rfl⟩
  · simp only [peek]
    rcases hh : q.heap with _ | ⟨e, rest⟩
    · simp [hh]
    · simp [hh]

theorem c5_error_taxonomy_witness :
    WF intLt (pqInit intLt [("a", (5:Int)), ("b", 3)]) ∧
    ((getitem (pqInit intLt [("a", (5:Int)), ("b", 3)]) "x" =
        Except.error PyErr.keyError ↔
      dictGet (pqInit intLt [("a", (5:Int)), ("b", 3)]).position "x" = none) ∧
    (dictGet (pqInit intLt [("a", (5:Int)), ("b", 3)]).position "x" = none →
      updateitem intLt (pqInit intLt [("a", (5:Int)), ("b", 3)]) "x" 7 =
        (Except.error PyErr.keyError, pqInit intLt [("a", (5:Int)), ("b", 3)])) ∧
    (dictGet (pqInit intLt [("a", (5:Int)), ("b", 3)]).position "x" ≠ none →
      (updateitem intLt (pqInit intLt [("a", (5:Int)), ("b", 3)]) "x" 7).1 =
        Except.ok ()) ∧
    (dictGet (pqInit intLt [("a", (5:Int)), ("b", 3)]).position "x" = none →
      delitem intLt (pqInit intLt [("a", (5:Int)), ("b", 3)]) "x" =
        (Except.error PyErr.keyError, pqInit intLt [("a", (5:Int)), ("b", 3)])) ∧
    (dictGet (pqInit intLt [("a", (5:Int)), ("b", 3)]).position "x" ≠ none →
      (delitem intLt (pqInit intLt [("a", (5:Int)), ("b", 3)]) "x").1 =
        Except.ok ()) ∧
    (dictGet (pqInit intLt [("a", (5:Int)), ("b", 3)]).position "x" = none →
      popKey intLt (pqInit intLt [("a", (5:Int)), ("b", 3)]) "x" none =
        (Except.error PyErr.keyError, pqInit intLt [("a", (5:Int)), ("b", 3)])) ∧
    (dictGet (pqInit intLt [("a", (5:Int)), ("b", 3)]).position "x" ≠ none →
      ∃ v, (popKey intLt (pqInit intLt [("a", (5:Int)), ("b", 3)]) "x" none).1 =
        Except.ok v) ∧
    (dictGet (pqInit intLt [("a", (5:Int)), ("b", 3)]).position "x" ≠ none →
      additem intLt (pqInit intLt [("a", (5:Int)), ("b", 3)]) "x" 7 =
        (Except.error PyErr.keyError, pqInit intLt [("a", (5:Int)), ("b", 3)])) ∧
    (dictGet (pqInit intLt [("a", (5:Int)), ("b", 3)]).position "x" = none →
      (additem intLt (pqInit intLt [("a", (5:Int)), ("b", 3)]) "x" 7).1 =
        Except.ok ()) ∧
    ((pqInit intLt [("a", (5:Int)), ("b", 3)]).heap = [] →
      popitem intLt (pqInit intLt [("a", (5:Int)), ("b", 3)]) =
        (Except.error PyErr.keyError, pqInit intLt [("a", (5:Int)), ("b", 3)])) ∧
    ((pqInit intLt [("a", (5:Int)), ("b", 3)]).heap ≠ [] →
      ∃ e, (popitem intLt (pqInit intLt [("a", (5:Int)), ("b", 3)])).1 =
        Except.ok e) ∧
    (peek (pqInit intLt [("a", (5:Int)), ("b", 3)]) = Except.error PyErr.keyError ↔
      (pqInit intLt [("a", (5:Int)), ("b", 3)]).heap = [])) :=
  ⟨(pqInit_wf intLt_swo _ (by decide)).1,
   c5_error_taxonomy (pqInit_wf intLt_swo _ (by decide)).1 "x" 7⟩

/-- C6: Update idempotence — writing a stored key's current priority back via
`__setitem__` (and hence `updateitem`) is a no-op: the heap array, the
position index and therefore the size are left exactly unchanged. -/
theorem c6_update_idempotence {K P : Type} [DecidableEq K] [Inhabited K]
    [Inhabited P] {ltp : P → P → Bool} {q : PQ K P} (hwf : WF ltp q)
    {k : K} {pos : Nat} (hk : dictGet q.position k = some pos) :
    setitem ltp q k ((q.heap.getD pos default).2) = q ∧
    updateitem ltp q k ((q.heap.getD pos default).2) = (Except.ok (), q) := by
  have hpos := (hwf.1.2.1 k pos hk).1
  have h1 := setitem_noop hwf.2 hk hpos
  refine ⟨h1, ?_⟩
  simp only [updateitem, hk, h1]

theorem c6_update_idempotence_witness :
    WF intLt (pqInit intLt [("a", (5:Int)), ("b", 3)]) ∧
    dictGet (pqInit intLt [("a", (5:Int)), ("b", 3)]).position "b" = some 0 ∧
    (setitem intLt (pqInit intLt [("a", (5:Int)), ("b", 3)]) "b"
        (((pqInit intLt [("a", (5:Int)), ("b", 3)]).heap.getD 0 default).2) =
      pqInit intLt [("a", (5:Int)), ("b", 3)] ∧
     updateitem intLt (pqInit intLt [("a", (5:Int)), ("b", 3)]) "b"
        (((pqInit intLt [("a", (5:Int)), ("b", 3)]).heap.getD 0 default).2) =
      (Except.ok (), pqInit intLt [("a", (5:Int)), ("b", 3)])) :=
  ⟨(pqInit_wf intLt_swo _ (by decide)).1, by decide,
   c6_update_idempotence (pqInit_wf intLt_swo _ (by decide)).1 (by decide)⟩

/-- C7: Insert/delete inverse — inserting an absent key `k` with any priority
and then deleting `k` returns success and restores the heap's entry multiset
(in particular its size) and the membership of every key in the position
index; the array order itself need not be restored. -/
theorem c7_insert_delete_inverse {K P : Type} [DecidableEq K] [Inhabited K]
    [Inhabited P] [DecidableEq P] {ltp : P → P → Bool} (hswo : IsSWO ltp)
    {q : PQ K P} (hwf : WF ltp q) {k : K}
    (hk : dictGet q.position k = none) (p : P) :
    (delitem ltp (setitem ltp q k p) k).1 = Except.ok () ∧
    (delitem ltp (setitem ltp q k p) k).2.heap.Perm q.heap ∧
    (delitem ltp (setitem ltp q k p) k).2.heap.length = q.heap.length ∧
    (∀ k', (dictGet (delitem ltp (setitem ltp q k p) k).2.position k').isSome
        = (dictGet q.position k').isSome) := by
  obtain ⟨hwf1, hperm1⟩ := setitem_insert_spec hswo hwf hk
  have hmem : (k, p) ∈ (setitem ltp q k p).heap :=
    hperm1.mem_iff.2 (List.mem_cons_self _ _)
  obtain ⟨i, hi, hgi⟩ := (mem_iff_getD (setitem ltp q k p).heap (k, p)).1 hmem
  have hk1 : dictGet (setitem ltp q k p).position k = some i := by
    have := hwf1.1.1 i hi
    rw [hgi] at this
    exact this
  obtain ⟨hok, hwf2, hperm2⟩ := delitem_spec hswo hwf1 hk1
  rw [hgi] at hperm2
  have hq2perm : (delitem ltp (setitem ltp q k p) k).2.heap.Perm q.heap :=
    (hperm2.symm.trans hperm1).cons_inv
  have hiso : ∀ (m : List (K × Nat)) (k' : K),
      (dictGet m k').isSome = true ↔ k' ∈ m.map Prod.fst := by
    intro m k'
    rw [Option.isSome_iff_ne_none, ne_eq, dictGet_eq_none_iff]
    exact not_not
  refine ⟨hok, hq2perm, hq2perm.length_eq, ?_⟩
  intro k'
  rw [Bool.eq_iff_iff, hiso, hiso, coh_mem_iff hwf2.1, coh_mem_iff hwf.1]
  exact (hq2perm.map Prod.fst).mem_iff

theorem c7_insert_delete_inverse_witness :
    IsSWO intLt ∧ WF intLt (pqInit intLt [("a", (5:Int)), ("b", 3)]) ∧
    dictGet (pqInit intLt [("a", (5:Int)), ("b", 3)]).position "c" = none ∧
    ((delitem intLt (setitem intLt (pqInit intLt [("a", (5:Int)), ("b", 3)]) "c" 4)
        "c").1 = Except.ok () ∧
     (delitem intLt (setitem intLt (pqInit intLt [("a", (5:Int)), ("b", 3)]) "c" 4)
        "c").2.heap.Perm (pqInit intLt [("a", (5:Int)), ("b", 3)]).heap ∧
     (delitem intLt (setitem intLt (pqInit intLt [("a", (5:Int)), ("b", 3)]) "c" 4)
        "c").2.heap.length = (pqInit intLt [("a", (5:Int)), ("b", 3)]).heap.length ∧
     (∀ k', (dictGet (delitem intLt
          (setitem intLt (pqInit intLt [("a", (5:Int)), ("b", 3)]) "c" 4)
          "c").2.position k').isSome
        = (dictGet (pqInit intLt [("a", (5:Int)), ("b", 3)]).position k').isSome)) :=
  ⟨intLt_swo, (pqInit_wf intLt_swo _ (by decide)).1, by decide,
   c7_insert_delete_inverse intLt_swo (pqInit_wf intLt_swo _ (by decide)).1
     (by decide) 4⟩

/-- C9: sort_by_value — for a mapping (distinct keys), the result is a
permutation of the items ordered ascending by value, and descending when the
reverse flag is set; concretely `sort_by_value {x: 2, y: 1, z: 3}` gives
`[(y,1), (x,2), (z,3)]` and, reversed, `[(z,3), (x,2), (y,1)]`. -/
theorem c9_sort_by_value {K : Type} [DecidableEq K] [Inhabited K]
    (mapping : List (K × Int)) (hnd : (mapping.map Prod.fst).Nodup) :
    (sort_by_value mapping false).Perm mapping ∧
    List.Pairwise (fun a b => a.2 ≤ b.2) (sort_by_value mapping false) ∧
    (sort_by_value mapping true).Perm mapping ∧
    List.Pairwise (fun a b => b.2 ≤ a.2) (sort_by_value mapping true) ∧
    sort_by_value [("x", (2:Int)), ("y", 1), ("z", 3)] false
      = [("y", (1:Int)), ("x", 2), ("z", 3)] ∧
    sort_by_value [("x", (2:Int)), ("y", 1), ("z", 3)] true
      = [("z", (3:Int)), ("x", 2), ("y", 1)] := by
  obtain ⟨hwfa, hpa⟩ := pqInit_wf intLt_swo mapping hnd
  obtain ⟨hwfd, hpd⟩ := pqInit_wf intGt_swo mapping hnd
  obtain ⟨hda, hsa⟩ := drain_spec intLt_swo hwfa
  obtain ⟨hdd, hsd⟩ := drain_spec intGt_swo hwfd
  have hsba : sort_by_value mapping false = drain intLt (pqInit intLt mapping) := rfl
  have hsbd : sort_by_value mapping true = drain intGt (pqInit intGt mapping) := rfl
  refine ⟨hsba ▸ hda.trans hpa, ?_, hsbd ▸ hdd.trans hpd, ?_, by decide, by decide⟩
  · rw [hsba]
    refine hsa.imp ?_
    intro a b h
    simp only [intLt, decide_eq_false_iff_not, Int.not_lt] at h
    exact h
  · rw [hsbd]
    refine hsd.imp ?_
    intro a b h
    simp only [intGt, decide_eq_false_iff_not, Int.not_lt] at h
    exact h

theorem c9_sort_by_value_witness :
    ([("u", (9:Int)), ("v", 2)].map Prod.fst).Nodup ∧
    ((sort_by_value [("u", (9:Int)), ("v", 2)] false).Perm
        [("u", (9:Int)), ("v", 2)] ∧
     List.Pairwise (fun a b => a.2 ≤ b.2)
        (sort_by_value [("u", (9:Int)), ("v", 2)] false) ∧
     (sort_by_value [("u", (9:Int)), ("v", 2)] true).Perm
        [("u", (9:Int)), ("v", 2)] ∧
     List.Pairwise (fun a b => b.2 ≤ a.2)
        (sort_by_value [("u", (9:Int)), ("v", 2)] true) ∧
     sort_by_value [("x", (2:Int)), ("y", 1), ("z", 3)] false
       = [("y", (1:Int)), ("x", 2), ("z", 3)] ∧
     sort_by_value [("x", (2:Int)), ("y", 1), ("z", 3)] true
       = [("z", (3:Int)), ("x", 2), ("y", 1)]) :=
  ⟨by decide, c9_sort_by_value [("u", (9:Int)), ("v", 2)] (by decide)⟩

/-- C8: Copy independence — `__copy__` allocates fresh entry cells, so after
`c = q.copy()` a priority assignment performed through the copy (whether it
overwrites an existing entry in place or inserts a new one) leaves every
priority observed through the original unchanged, and an assignment through
the original leaves every priority observed through the copy unchanged: the
two queues share no entry objects. -/
theorem c8_copy_independence {K : Type} [DecidableEq K] [Inhabited K]
    (s : List (Cell K)) (q : PQRef K) (hv : refValid s q = true)
    (dkey k : K) (pkey : Int) :
    lookupP (setitemS (copyS s q).1 (copyS s q).2 dkey pkey).1 q k
      = lookupP s q k ∧
    lookupP (setitemS (copyS s q).1 q dkey pkey).1 (copyS s q).2 k
      = lookupP (copyS s q).1 (copyS s q).2 k := by
  obtain ⟨hid, hposb⟩ := refValid_ids hv
  have hlen1 : (copyS s q).1.length = s.length + q.heapIds.length := by
    simp [copyS]
  have hcpos : (copyS s q).2.position = q.position := rfl
  have hcs : (copyS s q).1 = s ++ q.heapIds.map (fun id => s.getD id default) :=
    rfl
  constructor
  · cases hgk : dictGet q.position k with
    | none => simp only [lookupP, hgk]
    | some pos =>
        have hpn : pos < q.heapIds.length := hposb k pos hgk
        have hidlt : q.heapIds.getD pos 0 < s.length :=
          hid _ (getD_mem q.heapIds hpn)
        simp only [lookupP, hgk]
        rcases setitemS_store (copyS s q).1 (copyS s q).2 dkey pkey with
          ⟨hnone, hst⟩ | ⟨pos', hsome, hst⟩
        · have hi1 : q.heapIds.getD pos 0 < (copyS s q).1.length := by
            rw [hlen1]; omega
          rw [hst, getD_append_left _ _ hi1, hcs, getD_append_left _ _ hidlt]
        · rw [hcpos] at hsome
          have hpos' : pos' < q.heapIds.length := hposb dkey pos' hsome
          have hwid : (copyS s q).2.heapIds.getD pos' 0 = s.length + pos' :=
            copy_heapIds_getD s q hpos'
          have hne : q.heapIds.getD pos 0 ≠ s.length + pos' := by omega
          rw [hst, hwid, getD_set_ne _ _ hne, hcs, getD_append_left _ _ hidlt]
  · cases hgk : dictGet q.position k with
    | none => simp only [lookupP, hcpos, hgk]
    | some pos =>
        have hpn : pos < q.heapIds.length := hposb k pos hgk
        have hcid : (copyS s q).2.heapIds.getD pos 0 = s.length + pos :=
          copy_heapIds_getD s q hpn
        simp only [lookupP, hcpos, hgk]
        rcases setitemS_store (copyS s q).1 q dkey pkey with
          ⟨hnone, hst⟩ | ⟨pos', hsome, hst⟩
        · have hi1 : s.length + pos < (copyS s q).1.length := by
            rw [hlen1]; omega
          rw [hst, hcid, getD_append_left _ _ hi1]
        · have hpos' : pos' < q.heapIds.length := hposb dkey pos' hsome
          have hwid : q.heapIds.getD pos' 0 < s.length :=
            hid _ (getD_mem q.heapIds hpos')
          have hne : s.length + pos ≠ q.heapIds.getD pos' 0 := by omega
          rw [hst, hcid, getD_set_ne _ _ hne]

theorem c8_copy_independence_witness :
    refValid [(⟨"a", 1, EKind.desc⟩ : Cell String)]
        ⟨EKind.desc, [0], [("a", 0)]⟩ = true ∧
    (lookupP (setitemS
        (copyS [(⟨"a", 1, EKind.desc⟩ : Cell String)]
          ⟨EKind.desc, [0], [("a", 0)]⟩).1
        (copyS [(⟨"a", 1, EKind.desc⟩ : Cell String)]
          ⟨EKind.desc, [0], [("a", 0)]⟩).2 "a" 7).1
        ⟨EKind.desc, [0], [("a", 0)]⟩ "a"
      = lookupP [(⟨"a", 1, EKind.desc⟩ : Cell String)]
          ⟨EKind.desc, [0], [("a", 0)]⟩ "a" ∧
     lookupP (setitemS
        (copyS [(⟨"a", 1, EKind.desc⟩ : Cell String)]
          ⟨EKind.desc, [0], [("a", 0)]⟩).1
        ⟨EKind.desc, [0], [("a", 0)]⟩ "a" 7).1
        (copyS [(⟨"a", 1, EKind.desc⟩ : Cell String)]
          ⟨EKind.desc, [0], [("a", 0)]⟩).2 "a"
      = lookupP (copyS [(⟨"a", 1, EKind.desc⟩ : Cell String)]
          ⟨EKind.desc, [0], [("a", 0)]⟩).1
        (copyS [(⟨"a", 1, EKind.desc⟩ : Cell String)]
          ⟨EKind.desc, [0], [("a", 0)]⟩).2 "a") :=
  ⟨by decide,
   c8_copy_independence [(⟨"a", 1, EKind.desc⟩ : Cell String)]
     ⟨EKind.desc, [0], [("a", 0)]⟩ (by decide) "a" "a" 7⟩

/-- C10: copy does not carry the ordering strategy for new insertions —
`__copy__` builds the new queue with the class constructor, so the copy's
`create_entry` is the class default `_MinEntry` (ascending) even when the
original's is `_MaxEntry`; each entry present at copy time is duplicated with
all its fields including its entry class, so it keeps its comparison
behavior; a key inserted into the copy afterwards is allocated with the
ascending class, while the same insertion into the original would use the
original's own class. -/
theorem c10_copy_entry_kind {K : Type} [DecidableEq K] [Inhabited K]
    (s : List (Cell K)) (q : PQRef K) (pos : Nat) (k : K) (p : Int)
    (hpos : pos < q.heapIds.length) (hk : dictGet q.position k = none) :
    (copyS s q).2.createKind = EKind.asc ∧
    (copyS s q).1.getD ((copyS s q).2.heapIds.getD pos 0) default
      = s.getD (q.heapIds.getD pos 0) default ∧
    (setitemS (copyS s q).1 (copyS s q).2 k p).1
      = (copyS s q).1 ++ [⟨k, p, EKind.asc⟩] ∧
    (setitemS s q k p).1 = s ++ [⟨k, p, q.createKind⟩] := by
  refine ⟨rfl, ?_, ?_, ?_⟩
  · have hcid : (copyS s q).2.heapIds.getD pos 0 = s.length + pos :=
      copy_heapIds_getD s q hpos
    rw [hcid]
    have h1 : (copyS s q).1 = s ++ q.heapIds.map (fun id => s.getD id default) :=
      rfl
    rw [h1, getD_append_right _ _ (by omega)]
    have h2 : s.length + pos - s.length = pos := by omega
    rw [h2, getD_map _ _ hpos]
    rfl
  · rcases setitemS_store (copyS s q).1 (copyS s q).2 k p with
      ⟨hnone, hst⟩ | ⟨pos', hsome, hst⟩
    · exact hst
    · have hq : dictGet q.position k = some pos' := hsome
      rw [hk] at hq
      cases hq
  · rcases setitemS_store s q k p with ⟨hnone, hst⟩ | ⟨pos', hsome, hst⟩
    · exact hst
    · rw [hk] at hsome
      cases hsome

theorem c10_copy_entry_kind_witness :
    (0 < ([0] : List Nat).length ∧
     dictGet ([("a", 0)] : List (String × Nat)) "b" = none) ∧
    ((copyS [(⟨"a", 1, EKind.desc⟩ : Cell String)]
        ⟨EKind.desc, [0], [("a", 0)]⟩).2.createKind = EKind.asc ∧
     (copyS [(⟨"a", 1, EKind.desc⟩ : Cell String)]
        ⟨EKind.desc, [0], [("a", 0)]⟩).1.getD
        ((copyS [(⟨"a", 1, EKind.desc⟩ : Cell String)]
          ⟨EKind.desc, [0], [("a", 0)]⟩).2.heapIds.getD 0 0) default
      = [(⟨"a", 1, EKind.desc⟩ : Cell String)].getD (([0] : List Nat).getD 0 0)
          default ∧
     (setitemS (copyS [(⟨"a", 1, EKind.desc⟩ : Cell String)]
          ⟨EKind.desc, [0], [("a", 0)]⟩).1
        (copyS [(⟨"a", 1, EKind.desc⟩ : Cell String)]
          ⟨EKind.desc, [0], [("a", 0)]⟩).2 "b" 7).1
      = (copyS [(⟨"a", 1, EKind.desc⟩ : Cell String)]
          ⟨EKind.desc, [0], [("a", 0)]⟩).1 ++ [⟨"b", 7, EKind.asc⟩] ∧
     (setitemS [(⟨"a", 1, EKind.desc⟩ : Cell String)]
        ⟨EKind.desc, [0], [("a", 0)]⟩ "b" 7).1
      = [(⟨"a", 1, EKind.desc⟩ : Cell String)] ++ [⟨"b", 7, EKind.desc⟩]) :=
  ⟨⟨by decide, by decide⟩,
   c10_copy_entry_kind [(⟨"a", 1, EKind.desc⟩ : Cell String)]
     ⟨EKind.desc, [0], [("a", 0)]⟩ 0 "b" 7 (by decide) (by decide)⟩
